import Mathlib

/-!
Verification of the price-enrichment engine of the corporate-action
spreadsheet tool (src/app.js).  JavaScript strings are modelled as lists of
characters, JavaScript numbers as rationals, and nullable values as Option.
Each definition below is a direct translation of the correspondingly named
function in src/app.js; theorems state and settle the specification claims.
-/

set_option maxHeartbeats 1000000

/-- JavaScript strings are modelled as lists of characters. -/
abbrev Str := List Char

/-- Whitespace characters recognised by JavaScript String.prototype.trim
(the ASCII range relevant to this application). -/
def jsWs (c : Char) : Bool :=
  c == ' ' || c == '\t' || c == '\n' || c == '\r' || c == '\x0b' || c == '\x0c'

/-- JavaScript String.prototype.trim: strip leading and trailing whitespace. -/
def trimChars (s : Str) : Str :=
  ((s.dropWhile jsWs).reverse.dropWhile jsWs).reverse

/-- Matches the character class of the regex /^[A-Za-z0-9]+$/ in toTicker. -/
def isAlnum (c : Char) : Bool :=
  ('A' ≤ c && c ≤ 'Z') || ('a' ≤ c && c ≤ 'z') || ('0' ≤ c && c ≤ '9')

/-- JavaScript Math.round: round to the nearest integer, halves toward
positive infinity, i.e. the floor of x + 1/2. -/
def jsRound (q : ℚ) : ℤ := ⌊q + 1/2⌋

-- ============================================
-- toTicker (src/app.js lines 159-170)
-- ============================================

/-- Translation of toTicker: trim, require length at least 4, take the first
4 characters, require them alphanumeric (regex with the + quantifier, hence
also nonempty), then append the fixed market suffix ".T". -/
def toTicker (rawCode : Str) : Option Str :=
  let code := trimChars rawCode
  if code.length < 4 then none
  else
    let ticker := code.take 4
    if !ticker.isEmpty && ticker.all isAlnum then some (ticker ++ ['.', 'T'])
    else none

-- ============================================
-- calcChangeRate (src/app.js lines 254-257)
-- ============================================

/-- Translation of calcChangeRate: null when either operand is null or the
past value is zero, else the percentage change rounded to two decimals via
Math.round of the basis-point value. -/
def calcChangeRate (currentPrice pastPrice : Option ℚ) : Option ℚ :=
  match currentPrice, pastPrice with
  | none, _ => none
  | _, none => none
  | some c, some p =>
    if p = 0 then none
    else some ((jsRound ((c - p) / p * 10000) : ℚ) / 100)

-- ============================================
-- findPriceNTradingDaysBack (src/app.js lines 241-249)
-- ============================================

/-- Loop of findPriceNTradingDaysBack: the first numeric argument is one more
than the current index i, so the loop runs i = baseIdx - 1, ..., 0 as in the
source; count tracks the number of non-null closes seen so far.  Out-of-range
reads (never exercised, since the base index is in range) read as null. -/
def nBackGo (closes : List (Option ℚ)) (n : ℕ) : ℕ → ℕ → Option ℚ
  | 0, _ => none
  | i + 1, count =>
    match closes.getD i none with
    | none => nBackGo closes n i count
    | some v => if count + 1 = n then some v else nBackGo closes n i (count + 1)

/-- Translation of findPriceNTradingDaysBack: walk backward from baseIdx - 1,
skipping null closes, returning the nth non-null close, or null if fewer than
n non-null closes precede the base index. -/
def findPriceNTradingDaysBack (closes : List (Option ℚ)) (baseIdx n : ℕ) : Option ℚ :=
  nBackGo closes n baseIdx 0

/-- Characterisation of the backward-walk loop: starting at index i with the
counter already at c, the loop returns element n - c - 1 of the sequence of
non-null closes strictly before index i, read backward. -/
theorem nBackGo_eq (closes : List (Option ℚ)) (n : ℕ) :
    ∀ (i : ℕ) (c : ℕ), i ≤ closes.length → c < n →
      nBackGo closes n i c = ((closes.take i).reverse.filterMap id).get? (n - c - 1) := by
  intro i
  induction i with
  | zero => intro c _ _; simp [nBackGo]
  | succ i ih =>
    intro c hi hc
    have hil : i < closes.length := Nat.lt_of_succ_le hi
    have htake : closes.take (i + 1) = closes.take i ++ [closes.getD i none] := by
      rw [List.take_succ]
      congr 1
      rw [List.getD_eq_getD_get?, List.get?_eq_getElem?]
      cases hx : closes[i]? with
      | none =>
        have := List.getElem?_eq_none_iff.mp hx
        omega
      | some v => simp [hx]
    rw [htake, List.reverse_append]
    simp only [List.reverse_singleton, List.singleton_append]
    cases hx : closes.getD i none with
    | none =>
      rw [nBackGo]
      simp only [hx, List.filterMap_cons, id]
      exact ih c (Nat.le_of_lt hil) hc
    | some v =>
      rw [nBackGo]
      simp only [hx, List.filterMap_cons, id]
      by_cases hcn : c + 1 = n
      · have : n - c - 1 = 0 := by omega
        simp [hcn, this]
      · have hlt : c + 1 < n := Nat.lt_of_le_of_ne (Nat.succ_le_of_lt hc) hcn
        have hnc : n - c - 1 = (n - (c + 1) - 1) + 1 := by omega
        simp only [hcn, if_false]
        rw [ih (c + 1) (Nat.le_of_lt hil) hlt, hnc]
        rfl

/-- C2.  N-trading-days-back: for every close sequence, base index within
range and n at least 1, the result is the nth non-null close walking strictly
backward from the base index (nulls skipped, not counted), and it is null when
fewer than n non-null closes precede the base index.  In particular, for
closes [10, null, 20, 30] and base index 3, one trading day back yields 20 and
two trading days back yields 10. -/
theorem findPriceNTradingDaysBack_spec :
    (∀ (closes : List (Option ℚ)) (baseIdx n : ℕ),
      baseIdx ≤ closes.length → 1 ≤ n →
        (findPriceNTradingDaysBack closes baseIdx n
            = ((closes.take baseIdx).reverse.filterMap id).get? (n - 1)
          ∧ (((closes.take baseIdx).reverse.filterMap id).length < n →
              findPriceNTradingDaysBack closes baseIdx n = none)))
    ∧ findPriceNTradingDaysBack [some 10, none, some 20, some 30] 3 1 = some 20
    ∧ findPriceNTradingDaysBack [some 10, none, some 20, some 30] 3 2 = some 10 := by
  refine ⟨?_, by decide, by decide⟩
  intro closes baseIdx n hb hn
  have h := nBackGo_eq closes n baseIdx 0 hb (Nat.lt_of_lt_of_le Nat.zero_lt_one hn)
  have hmain : findPriceNTradingDaysBack closes baseIdx n
      = ((closes.take baseIdx).reverse.filterMap id).get? (n - 1) := by
    simpa [findPriceNTradingDaysBack] using h
  refine ⟨hmain, fun hlen => ?_⟩
  rw [hmain]
  exact List.get?_eq_none.mpr (by omega)

/-- Closed witness for C2: instantiates the universal statement at the
concrete series from the specification example. -/
theorem findPriceNTradingDaysBack_spec_witness :
    findPriceNTradingDaysBack [some (10 : ℚ), none, some 20, some 30] 3 1
      = (([some (10 : ℚ), none, some 20, some 30].take 3).reverse.filterMap id).get? 0 :=
  (findPriceNTradingDaysBack_spec.1 [some 10, none, some 20, some 30] 3 1
    (by decide) (by decide)).1

/-- C3.  Change-rate formula: null when either operand is null or the past
value is zero; otherwise round((current - past) / past * 10000) / 100.  In
particular calcChangeRate 110 100 = 10, calcChangeRate x 0 = null, and
calcChangeRate null 100 = null. -/
theorem calcChangeRate_spec :
    (∀ p, calcChangeRate none p = none)
    ∧ (∀ c, calcChangeRate c none = none)
    ∧ (∀ x, calcChangeRate (some x) (some 0) = none)
    ∧ (∀ x y : ℚ, y ≠ 0 →
        calcChangeRate (some x) (some y)
          = some ((jsRound ((x - y) / y * 10000) : ℚ) / 100))
    ∧ calcChangeRate (some 110) (some 100) = some 10
    ∧ calcChangeRate none (some 100) = none := by
  refine ⟨fun p => by cases p <;> rfl, fun c => ?_, fun x => by simp [calcChangeRate],
    fun x y hy => by simp [calcChangeRate, hy],
    by norm_num [calcChangeRate, jsRound], rfl⟩
  cases c <;> rfl

/-- Closed witness for C3: the nonzero-past branch at the specification's
concrete example 110 versus 100. -/
theorem calcChangeRate_spec_witness :
    calcChangeRate (some 110) (some 100)
      = some ((jsRound ((110 - 100) / 100 * 10000) : ℚ) / 100) :=
  calcChangeRate_spec.2.2.2.1 110 100 (by norm_num)

/-- C4.  Ticker derivation: trim, then null when fewer than 4 characters
remain or some of the first 4 is non-alphanumeric, else the first 4 trimmed
characters with the fixed ".T" suffix.  In particular "82270 " maps to
"8227.T" and "AB1" maps to null. -/
theorem toTicker_spec :
    (∀ raw : Str,
      ((trimChars raw).length < 4 → toTicker raw = none)
      ∧ ((∃ c ∈ (trimChars raw).take 4, isAlnum c = false) → toTicker raw = none)
      ∧ (4 ≤ (trimChars raw).length → (∀ c ∈ (trimChars raw).take 4, isAlnum c) →
          toTicker raw = some ((trimChars raw).take 4 ++ ['.', 'T'])))
    ∧ toTicker ("82270 ".toList) = some ("8227.T".toList)
    ∧ toTicker ("AB1".toList) = none := by
  refine ⟨?_, by decide, by decide⟩
  intro raw
  refine ⟨fun h => by simp [toTicker, h], ?_, ?_⟩
  · rintro ⟨c, hc, hcf⟩
    by_cases h4 : (trimChars raw).length < 4
    · simp [toTicker, h4]
    · have : ¬ ((trimChars raw).take 4).all isAlnum := by
        intro hall
        have := List.all_eq_true.mp hall c hc
        simp [hcf] at this
      simp [toTicker, h4, this]
  · intro h4 hall
    have hnl : ¬ (trimChars raw).length < 4 := Nat.not_lt_of_le h4
    have hne : ¬ ((trimChars raw).take 4).isEmpty := by
      have : ((trimChars raw).take 4).length = 4 := by
        simp [List.length_take]; omega
      intro hemp
      rw [List.isEmpty_iff] at hemp
      simp [hemp] at this
    have hall' : ((trimChars raw).take 4).all isAlnum := List.all_eq_true.mpr hall
    simp [toTicker, hnl, hne, hall']

/-- Closed witness for C4: the too-short branch at the specification's
concrete example "AB1". -/
theorem toTicker_spec_witness : toTicker ("AB1".toList) = none :=
  ((toTicker_spec.1 ("AB1".toList)).1) (by decide)

-- ============================================
-- findClosestPriceWithIndex (src/app.js lines 201-228)
-- ============================================

/-- Comparison against the running best difference: bestDiff starts at
Infinity (modelled by none), so any difference beats an empty state. -/
def better (diff : ℤ) : Option (ℕ × ℤ) → Bool
  | none => true
  | some (_, bd) => decide (diff < bd)

/-- First loop of findClosestPriceWithIndex: scan the (timestamp, close)
pairs in order, keeping the index and difference of the non-null entry with
the smallest non-negative difference targetTs - ts seen so far. -/
def pass1 (targetTs : ℤ) : List (ℤ × Option ℚ) → ℕ → Option (ℕ × ℤ) → Option (ℕ × ℤ)
  | [], _, st => st
  | (ts, c) :: rest, i, st =>
    match c with
    | none => pass1 targetTs rest (i + 1) st
    | some _ =>
      if 0 ≤ targetTs - ts ∧ better (targetTs - ts) st
      then pass1 targetTs rest (i + 1) (some (i, targetTs - ts))
      else pass1 targetTs rest (i + 1) st

/-- Second loop of findClosestPriceWithIndex (the fallback when no entry is
on or before the target): scan keeping the non-null entry with the smallest
absolute difference. -/
def pass2 (targetTs : ℤ) : List (ℤ × Option ℚ) → ℕ → Option (ℕ × ℤ) → Option (ℕ × ℤ)
  | [], _, st => st
  | (ts, c) :: rest, i, st =>
    match c with
    | none => pass2 targetTs rest (i + 1) st
    | some _ =>
      if better |targetTs - ts| st
      then pass2 targetTs rest (i + 1) (some (i, |targetTs - ts|))
      else pass2 targetTs rest (i + 1) st

/-- Translation of findClosestPriceWithIndex: run the on-or-before pass, fall
back to the absolute-difference pass only when it found nothing, and return
the close at the winning index together with the index (none models the
JavaScript sentinel -1 / null price).  The source indexes two parallel
arrays of equal length; the zip realises that pairing. -/
def findClosestPriceWithIndex (timestamps : List ℤ) (closes : List (Option ℚ))
    (targetTs : ℤ) : Option ℚ × Option ℕ :=
  let pairs := timestamps.zip closes
  let best :=
    match pass1 targetTs pairs 0 none with
    | some p => some p
    | none => pass2 targetTs pairs 0 none
  match best with
  | some (i, _) => (closes.getD i none, some i)
  | none => (none, none)

/-- Back-compatibility wrapper findClosestPrice (src/app.js lines 233-235). -/
def findClosestPrice (timestamps : List ℤ) (closes : List (Option ℚ))
    (targetTs : ℤ) : Option ℚ :=
  (findClosestPriceWithIndex timestamps closes targetTs).1

/-- An entry is a candidate for the first pass when its close is non-null and
it lies on or before the target. -/
def okBefore (targetTs : ℤ) (p : ℤ × Option ℚ) : Prop :=
  p.2 ≠ none ∧ 0 ≤ targetTs - p.1

/-- The first pass returns nothing exactly when it started with nothing and
no entry is a non-null on-or-before candidate. -/
theorem pass1_none_iff (t : ℤ) :
    ∀ (l : List (ℤ × Option ℚ)) (i0 : ℕ) (st : Option (ℕ × ℤ)),
      pass1 t l i0 st = none ↔ st = none ∧ ∀ p ∈ l, ¬ okBefore t p := by
  intro l
  induction l with
  | nil => intro i0 st; simp [pass1]
  | cons hd rest ih =>
    intro i0 st
    obtain ⟨ts, c⟩ := hd
    cases c with
    | none =>
      simp only [pass1, ih, List.mem_cons]
      constructor
      · rintro ⟨hst, hall⟩
        refine ⟨hst, ?_⟩
        rintro p (rfl | hp)
        · rintro ⟨hne, -⟩; exact hne rfl
        · exact hall p hp
      · rintro ⟨hst, hall⟩
        exact ⟨hst, fun p hp => hall p (Or.inr hp)⟩
    | some v =>
      by_cases hcond : 0 ≤ t - ts ∧ better (t - ts) st = true
      · have hunf : pass1 t ((ts, some v) :: rest) i0 st
            = pass1 t rest (i0 + 1) (some (i0, t - ts)) := by
          simp only [pass1]; rw [if_pos hcond]
        rw [hunf, ih]
        constructor
        · rintro ⟨h, -⟩; exact absurd h (by simp)
        · rintro ⟨-, hall⟩
          exact absurd ⟨by simp, hcond.1⟩ (hall (ts, some v) (List.mem_cons_self _ _))
      · have hunf : pass1 t ((ts, some v) :: rest) i0 st
            = pass1 t rest (i0 + 1) st := by
          simp only [pass1]; rw [if_neg hcond]
        rw [hunf, ih]
        simp only [List.mem_cons]
        constructor
        · rintro ⟨hst, hall⟩
          refine ⟨hst, ?_⟩
          rintro p (rfl | hp)
          · intro hok
            subst hst
            exact hcond ⟨hok.2, rfl⟩
          · exact hall p hp
        · rintro ⟨hst, hall⟩
          exact ⟨hst, fun p hp => hall p (Or.inr hp)⟩

/-- Whatever the first pass returns, it is either the initial state or a
non-null on-or-before entry of the list, carrying its difference. -/
theorem pass1_sound (t : ℤ) :
    ∀ (l : List (ℤ × Option ℚ)) (i0 : ℕ) (st : Option (ℕ × ℤ)) (j : ℕ) (d : ℤ),
      pass1 t l i0 st = some (j, d) →
        st = some (j, d) ∨
          ∃ k ts v, l.get? k = some (ts, some v) ∧ j = i0 + k ∧ d = t - ts ∧ 0 ≤ d := by
  intro l
  induction l with
  | nil => intro i0 st j d h; exact Or.inl h
  | cons hd rest ih =>
    intro i0 st j d h
    obtain ⟨ts, c⟩ := hd
    have step : ∀ st' : Option (ℕ × ℤ),
        pass1 t rest (i0 + 1) st' = some (j, d) →
        st' = some (j, d) ∨
          ∃ k ts' v, rest.get? k = some (ts', some v) ∧ j = i0 + 1 + k ∧ d = t - ts' ∧ 0 ≤ d :=
      fun st' h' => ih (i0 + 1) st' j d h'
    cases c with
    | none =>
      rcases step st (by simpa [pass1] using h) with h' | ⟨k, ts', v, hk, hj, hd, hge⟩
      · exact Or.inl h'
      · exact Or.inr ⟨k + 1, ts', v, by simpa using hk, by omega, hd, hge⟩
    | some v =>
      by_cases hcond : 0 ≤ t - ts ∧ better (t - ts) st = true
      · have h2 : pass1 t rest (i0 + 1) (some (i0, t - ts)) = some (j, d) := by
          simp only [pass1] at h; rwa [if_pos hcond] at h
        rcases step (some (i0, t - ts)) h2 with h' | ⟨k, ts', v', hk, hj, hd, hge⟩
        · obtain ⟨rfl, rfl⟩ : i0 = j ∧ t - ts = d := by
            have hp := Option.some.inj h'
            exact ⟨congrArg Prod.fst hp, congrArg Prod.snd hp⟩
          exact Or.inr ⟨0, ts, v, rfl, by omega, rfl, hcond.1⟩
        · exact Or.inr ⟨k + 1, ts', v', by simpa using hk, by omega, hd, hge⟩
      · have h2 : pass1 t rest (i0 + 1) st = some (j, d) := by
          simp only [pass1] at h; rwa [if_neg hcond] at h
        rcases step st h2 with h' | ⟨k, ts', v', hk, hj, hd, hge⟩
        · exact Or.inl h'
        · exact Or.inr ⟨k + 1, ts', v', by simpa using hk, by omega, hd, hge⟩

/-- The first pass is minimising: its result difference is at most the
initial state's difference and at most the difference of every non-null
on-or-before entry of the list. -/
theorem pass1_min (t : ℤ) :
    ∀ (l : List (ℤ × Option ℚ)) (i0 : ℕ) (st : Option (ℕ × ℤ)) (j : ℕ) (d : ℤ),
      pass1 t l i0 st = some (j, d) →
        (∀ j' d', st = some (j', d') → d ≤ d') ∧
        (∀ k ts v, l.get? k = some (ts, some v) → 0 ≤ t - ts → d ≤ t - ts) := by
  intro l
  induction l with
  | nil =>
    intro i0 st j d h
    simp only [pass1] at h
    subst h
    refine ⟨fun j' d' hst => ?_, fun k ts v hk => absurd hk (by simp)⟩
    exact le_of_eq (congrArg Prod.snd (Option.some.inj hst))
  | cons hd rest ih =>
    intro i0 st j d h
    obtain ⟨ts, c⟩ := hd
    cases c with
    | none =>
      have h2 : pass1 t rest (i0 + 1) st = some (j, d) := by simpa only [pass1] using h
      obtain ⟨hA, hB⟩ := ih (i0 + 1) st j d h2
      refine ⟨hA, ?_⟩
      intro k ts' v hk hge
      cases k with
      | zero => simp at hk
      | succ k => exact hB k ts' v (by simpa using hk) hge
    | some v =>
      by_cases hcond : 0 ≤ t - ts ∧ better (t - ts) st = true
      · have h2 : pass1 t rest (i0 + 1) (some (i0, t - ts)) = some (j, d) := by
          simp only [pass1] at h; rwa [if_pos hcond] at h
        obtain ⟨hA, hB⟩ := ih (i0 + 1) _ j d h2
        have hdle : d ≤ t - ts := hA i0 (t - ts) rfl
        refine ⟨?_, ?_⟩
        · intro j' d' hst
          subst hst
          have hlt : t - ts < d' := by simpa [better] using hcond.2
          omega
        · intro k ts' v' hk hge
          cases k with
          | zero =>
            have hts : ts = ts' := congrArg Prod.fst (Option.some.inj hk)
            subst hts
            exact hdle
          | succ k => exact hB k ts' v' (by simpa using hk) hge
      · have h2 : pass1 t rest (i0 + 1) st = some (j, d) := by
          simp only [pass1] at h; rwa [if_neg hcond] at h
        obtain ⟨hA, hB⟩ := ih (i0 + 1) st j d h2
        refine ⟨hA, ?_⟩
        intro k ts' v' hk hge
        cases k with
        | zero =>
          have hts : ts = ts' := congrArg Prod.fst (Option.some.inj hk)
          subst hts
          cases st with
          | none => exact absurd ⟨hge, rfl⟩ hcond
          | some p =>
            obtain ⟨j0, d0⟩ := p
            have hnb : ¬ (better (t - ts) (some (j0, d0)) = true) :=
              fun hb => hcond ⟨hge, hb⟩
            have hd0 : d0 ≤ t - ts := by simpa [better] using hnb
            exact le_trans (hA j0 d0 rfl) hd0
        | succ k => exact hB k ts' v' (by simpa using hk) hge

/-- The fallback pass returns nothing exactly when it started with nothing
and every entry of the list has a null close. -/
theorem pass2_none_iff (t : ℤ) :
    ∀ (l : List (ℤ × Option ℚ)) (i0 : ℕ) (st : Option (ℕ × ℤ)),
      pass2 t l i0 st = none ↔ st = none ∧ ∀ p ∈ l, p.2 = none := by
  intro l
  induction l with
  | nil => intro i0 st; simp [pass2]
  | cons hd rest ih =>
    intro i0 st
    obtain ⟨ts, c⟩ := hd
    cases c with
    | none =>
      have hunf : pass2 t ((ts, none) :: rest) i0 st = pass2 t rest (i0 + 1) st := by
        simp only [pass2]
      rw [hunf, ih]
      simp only [List.mem_cons]
      constructor
      · rintro ⟨hst, hall⟩
        refine ⟨hst, ?_⟩
        rintro p (rfl | hp)
        · rfl
        · exact hall p hp
      · rintro ⟨hst, hall⟩
        exact ⟨hst, fun p hp => hall p (Or.inr hp)⟩
    | some v =>
      by_cases hcond : better |t - ts| st = true
      · have hunf : pass2 t ((ts, some v) :: rest) i0 st
            = pass2 t rest (i0 + 1) (some (i0, |t - ts|)) := by
          simp only [pass2]; rw [if_pos hcond]
        rw [hunf, ih]
        constructor
        · rintro ⟨h, -⟩; exact absurd h (by simp)
        · rintro ⟨-, hall⟩
          exact absurd (hall (ts, some v) (List.mem_cons_self _ _)) (by simp)
      · have hunf : pass2 t ((ts, some v) :: rest) i0 st
            = pass2 t rest (i0 + 1) st := by
          simp only [pass2]; rw [if_neg hcond]
        rw [hunf, ih]
        constructor
        · rintro ⟨hst, -⟩
          subst hst
          exact absurd rfl hcond
        · rintro ⟨-, hall⟩
          exact absurd (hall (ts, some v) (List.mem_cons_self _ _)) (by simp)

/-- Whatever the fallback pass returns, it is either the initial state or a
non-null entry of the list, carrying its absolute difference. -/
theorem pass2_sound (t : ℤ) :
    ∀ (l : List (ℤ × Option ℚ)) (i0 : ℕ) (st : Option (ℕ × ℤ)) (j : ℕ) (d : ℤ),
      pass2 t l i0 st = some (j, d) →
        st = some (j, d) ∨
          ∃ k ts v, l.get? k = some (ts, some v) ∧ j = i0 + k ∧ d = |t - ts| := by
  intro l
  induction l with
  | nil => intro i0 st j d h; exact Or.inl h
  | cons hd rest ih =>
    intro i0 st j d h
    obtain ⟨ts, c⟩ := hd
    cases c with
    | none =>
      rcases ih (i0 + 1) st j d (by simpa only [pass2] using h) with
        h' | ⟨k, ts', v, hk, hj, hd⟩
      · exact Or.inl h'
      · exact Or.inr ⟨k + 1, ts', v, by simpa using hk, by omega, hd⟩
    | some v =>
      by_cases hcond : better |t - ts| st = true
      · have h2 : pass2 t rest (i0 + 1) (some (i0, |t - ts|)) = some (j, d) := by
          simp only [pass2] at h; rwa [if_pos hcond] at h
        rcases ih (i0 + 1) _ j d h2 with h' | ⟨k, ts', v', hk, hj, hd⟩
        · obtain ⟨rfl, rfl⟩ : i0 = j ∧ |t - ts| = d := by
            have hp := Option.some.inj h'
            exact ⟨congrArg Prod.fst hp, congrArg Prod.snd hp⟩
          exact Or.inr ⟨0, ts, v, rfl, by omega, rfl⟩
        · exact Or.inr ⟨k + 1, ts', v', by simpa using hk, by omega, hd⟩
      · have h2 : pass2 t rest (i0 + 1) st = some (j, d) := by
          simp only [pass2] at h; rwa [if_neg hcond] at h
        rcases ih (i0 + 1) st j d h2 with h' | ⟨k, ts', v', hk, hj, hd⟩
        · exact Or.inl h'
        · exact Or.inr ⟨k + 1, ts', v', by simpa using hk, by omega, hd⟩

/-- The fallback pass is minimising for the absolute difference. -/
theorem pass2_min (t : ℤ) :
    ∀ (l : List (ℤ × Option ℚ)) (i0 : ℕ) (st : Option (ℕ × ℤ)) (j : ℕ) (d : ℤ),
      pass2 t l i0 st = some (j, d) →
        (∀ j' d', st = some (j', d') → d ≤ d') ∧
        (∀ k ts v, l.get? k = some (ts, some v) → d ≤ |t - ts|) := by
  intro l
  induction l with
  | nil =>
    intro i0 st j d h
    simp only [pass2] at h
    subst h
    refine ⟨fun j' d' hst => ?_, fun k ts v hk => absurd hk (by simp)⟩
    exact le_of_eq (congrArg Prod.snd (Option.some.inj hst))
  | cons hd rest ih =>
    intro i0 st j d h
    obtain ⟨ts, c⟩ := hd
    cases c with
    | none =>
      have h2 : pass2 t rest (i0 + 1) st = some (j, d) := by simpa only [pass2] using h
      obtain ⟨hA, hB⟩ := ih (i0 + 1) st j d h2
      refine ⟨hA, ?_⟩
      intro k ts' v hk
      cases k with
      | zero => simp at hk
      | succ k => exact hB k ts' v (by simpa using hk)
    | some v =>
      by_cases hcond : better |t - ts| st = true
      · have h2 : pass2 t rest (i0 + 1) (some (i0, |t - ts|)) = some (j, d) := by
          simp only [pass2] at h; rwa [if_pos hcond] at h
        obtain ⟨hA, hB⟩ := ih (i0 + 1) _ j d h2
        have hdle : d ≤ |t - ts| := hA i0 |t - ts| rfl
        refine ⟨?_, ?_⟩
        · intro j' d' hst
          subst hst
          have hlt : |t - ts| < d' := by simpa [better] using hcond
          omega
        · intro k ts' v' hk
          cases k with
          | zero =>
            have hts : ts = ts' := congrArg Prod.fst (Option.some.inj hk)
            subst hts
            exact hdle
          | succ k => exact hB k ts' v' (by simpa using hk)
      · have h2 : pass2 t rest (i0 + 1) st = some (j, d) := by
          simp only [pass2] at h; rwa [if_neg hcond] at h
        obtain ⟨hA, hB⟩ := ih (i0 + 1) st j d h2
        refine ⟨hA, ?_⟩
        intro k ts' v' hk
        cases k with
        | zero =>
          have hts : ts = ts' := congrArg Prod.fst (Option.some.inj hk)
          subst hts
          cases st with
          | none => exact absurd rfl hcond
          | some p =>
            obtain ⟨j0, d0⟩ := p
            have hd0 : d0 ≤ |t - ts| := by simpa [better] using hcond
            exact le_trans (hA j0 d0 rfl) hd0
        | succ k => exact hB k ts' v' (by simpa using hk)

/-- Positional reading of zipped lists: an entry of the zip at position k is
exactly the pair of the entries of the two lists at position k. -/
theorem zip_get?_iff {α β : Type} :
    ∀ (a : List α) (b : List β) (k : ℕ) (x : α) (y : β),
      (a.zip b).get? k = some (x, y) ↔ a.get? k = some x ∧ b.get? k = some y := by
  intro a
  induction a with
  | nil => intro b k x y; simp
  | cons ha ta ih =>
    intro b k x y
    cases b with
    | nil => simp
    | cons hb tb =>
      cases k with
      | zero =>
        simp only [List.zip_cons_cons, List.get?]
        constructor
        · intro h
          have hp := Option.some.inj h
          exact ⟨congrArg (some ∘ Prod.fst) hp, congrArg (some ∘ Prod.snd) hp⟩
        · rintro ⟨h1, h2⟩
          rw [Option.some.inj h1, Option.some.inj h2]
      | succ k => simpa using ih tb k x y

/-- C1.  Closest-date selection: among entries with a non-null close, the
lookup selects the one with the smallest non-negative difference
targetTs - ts; if no entry is on or before the target it selects the entry
with the smallest absolute difference; if no entry has a non-null close it
selects nothing (null price, no index).  In particular, with timestamps
[t - 2 days, t + 1 day] both non-null and target t, it picks t - 2 days. -/
theorem findClosestPriceWithIndex_spec :
    (∀ (timestamps : List ℤ) (closes : List (Option ℚ)) (t : ℤ),
      timestamps.length = closes.length →
      (((∀ c ∈ closes, c = none) →
          findClosestPriceWithIndex timestamps closes t = (none, none))
        ∧ ((∃ k ts v, timestamps.get? k = some ts ∧ closes.get? k = some (some v)
              ∧ 0 ≤ t - ts) →
            ∃ j ts v, timestamps.get? j = some ts ∧ closes.get? j = some (some v)
              ∧ (findClosestPriceWithIndex timestamps closes t).2 = some j
              ∧ (findClosestPriceWithIndex timestamps closes t).1 = some v
              ∧ 0 ≤ t - ts
              ∧ ∀ k ts' v', timestamps.get? k = some ts' →
                  closes.get? k = some (some v') → 0 ≤ t - ts' → t - ts ≤ t - ts')
        ∧ ((∀ k ts v, timestamps.get? k = some ts → closes.get? k = some (some v) →
              t - ts < 0) →
           (∃ k ts v, timestamps.get? k = some ts ∧ closes.get? k = some (some v)) →
            ∃ j ts v, timestamps.get? j = some ts ∧ closes.get? j = some (some v)
              ∧ (findClosestPriceWithIndex timestamps closes t).2 = some j
              ∧ (findClosestPriceWithIndex timestamps closes t).1 = some v
              ∧ ∀ k ts' v', timestamps.get? k = some ts' →
                  closes.get? k = some (some v') → |t - ts| ≤ |t - ts'|)))
    ∧ findClosestPriceWithIndex [-172800, 86400] [some 10, some 20] 0
        = (some 10, some 0) := by
  refine ⟨?_, by decide⟩
  intro timestamps closes t hlen
  refine ⟨?_, ?_, ?_⟩
  · intro hall
    have h1 : pass1 t (timestamps.zip closes) 0 none = none :=
      (pass1_none_iff t _ 0 none).mpr
        ⟨rfl, fun p hp hok => hok.1 (hall p.2 (List.of_mem_zip hp).2)⟩
    have h2 : pass2 t (timestamps.zip closes) 0 none = none :=
      (pass2_none_iff t _ 0 none).mpr
        ⟨rfl, fun p hp => hall p.2 (List.of_mem_zip hp).2⟩
    simp [findClosestPriceWithIndex, h1, h2]
  · rintro ⟨k, ts, v, hts, hcl, hge⟩
    have hkp : (timestamps.zip closes).get? k = some (ts, some v) :=
      (zip_get?_iff _ _ _ _ _).mpr ⟨hts, hcl⟩
    have hne : pass1 t (timestamps.zip closes) 0 none ≠ none := by
      intro h0
      obtain ⟨-, hall⟩ := (pass1_none_iff t _ 0 none).mp h0
      exact hall _ (List.get?_mem hkp) ⟨by simp, hge⟩
    obtain ⟨⟨j, d⟩, hj⟩ : ∃ p, pass1 t (timestamps.zip closes) 0 none = some p :=
      Option.ne_none_iff_exists'.mp hne
    rcases pass1_sound t (timestamps.zip closes) 0 none j d hj with
      h' | ⟨k0, ts0, v0, hk0, hj0, hd0, hge0⟩
    · exact absurd h' (by simp)
    · have hj0' : j = k0 := by omega
      subst hj0'
      obtain ⟨hts0, hcl0⟩ := (zip_get?_iff _ _ _ _ _).mp hk0
      have hres : findClosestPriceWithIndex timestamps closes t
          = (closes.getD j none, some j) := by
        simp [findClosestPriceWithIndex, hj]
      have hgetD : closes.getD j none = some v0 := by
        rw [List.getD_eq_getD_get?, hcl0]; rfl
      refine ⟨j, ts0, v0, hts0, hcl0, by rw [hres], by rw [hres, hgetD], by omega, ?_⟩
      intro k' ts' v' hts' hcl' hge'
      have hk' : (timestamps.zip closes).get? k' = some (ts', some v') :=
        (zip_get?_iff _ _ _ _ _).mpr ⟨hts', hcl'⟩
      have hmin := (pass1_min t (timestamps.zip closes) 0 none j d hj).2 k' ts' v' hk' hge'
      omega
  · intro hnone
    rintro ⟨k, ts, v, hts, hcl⟩
    have h1 : pass1 t (timestamps.zip closes) 0 none = none := by
      refine (pass1_none_iff t _ 0 none).mpr ⟨rfl, fun p hp hok => ?_⟩
      obtain ⟨kk, hkk⟩ := List.get?_of_mem hp
      obtain ⟨pts, pc⟩ := p
      cases pc with
      | none => exact hok.1 rfl
      | some pv =>
        obtain ⟨hts', hcl'⟩ := (zip_get?_iff _ _ _ _ _).mp hkk
        have := hnone kk pts pv hts' hcl'
        have := hok.2
        simp only at this
        omega
    have hkp : (timestamps.zip closes).get? k = some (ts, some v) :=
      (zip_get?_iff _ _ _ _ _).mpr ⟨hts, hcl⟩
    have hne : pass2 t (timestamps.zip closes) 0 none ≠ none := by
      intro h0
      obtain ⟨-, hall⟩ := (pass2_none_iff t _ 0 none).mp h0
      have := hall _ (List.get?_mem hkp)
      simp at this
    obtain ⟨⟨j, d⟩, hj⟩ : ∃ p, pass2 t (timestamps.zip closes) 0 none = some p :=
      Option.ne_none_iff_exists'.mp hne
    rcases pass2_sound t (timestamps.zip closes) 0 none j d hj with
      h' | ⟨k0, ts0, v0, hk0, hj0, hd0⟩
    · exact absurd h' (by simp)
    · have hj0' : j = k0 := by omega
      subst hj0'
      obtain ⟨hts0, hcl0⟩ := (zip_get?_iff _ _ _ _ _).mp hk0
      have hres : findClosestPriceWithIndex timestamps closes t
          = (closes.getD j none, some j) := by
        simp [findClosestPriceWithIndex, h1, hj]
      have hgetD : closes.getD j none = some v0 := by
        rw [List.getD_eq_getD_get?, hcl0]; rfl
      refine ⟨j, ts0, v0, hts0, hcl0, by rw [hres], by rw [hres, hgetD], ?_⟩
      intro k' ts' v' hts' hcl'
      have hk' : (timestamps.zip closes).get? k' = some (ts', some v') :=
        (zip_get?_iff _ _ _ _ _).mpr ⟨hts', hcl'⟩
      have hmin := (pass2_min t (timestamps.zip closes) 0 none j d hj).2 k' ts' v' hk'
      omega

/-- Closed witness for C1: the preferred-on-or-before branch at the
specification's concrete two-point series with target 0. -/
theorem findClosestPriceWithIndex_spec_witness :
    ∃ j ts v, ([-172800, 86400] : List ℤ).get? j = some ts
      ∧ ([some (10 : ℚ), some 20] : List (Option ℚ)).get? j = some (some v)
      ∧ (findClosestPriceWithIndex [-172800, 86400] [some 10, some 20] 0).2 = some j
      ∧ (findClosestPriceWithIndex [-172800, 86400] [some 10, some 20] 0).1 = some v
      ∧ 0 ≤ 0 - ts
      ∧ ∀ k ts' v', ([-172800, 86400] : List ℤ).get? k = some ts' →
          ([some (10 : ℚ), some 20] : List (Option ℚ)).get? k = some (some v') →
          0 ≤ 0 - ts' → 0 - ts ≤ 0 - ts' :=
  (findClosestPriceWithIndex_spec.1 [-172800, 86400] [some 10, some 20] 0
    (by decide)).2.1 ⟨0, -172800, 10, by decide, by decide, by decide⟩

-- ============================================
-- getUniqueStocks (src/app.js lines 175-192)
-- ============================================

/-- Resolved stock reference as built by getUniqueStocks: derived ticker
(null when malformed), target date, and the trimmed identifier as key. -/
structure StockRef where
  ticker : Option Str
  date : Str
  rawCode : Str
deriving DecidableEq

/-- Loop of getUniqueStocks: the accumulator is the insertion-ordered list of
values of the seen-map; a row is skipped when it is too short, its trimmed
code is empty, or the code was already seen. -/
def getUniqueStocksGo (codeColIdx dateColIdx : ℕ) :
    List (List Str) → List StockRef → List StockRef
  | [], acc => acc
  | row :: rest, acc =>
    if row.length ≤ codeColIdx then getUniqueStocksGo codeColIdx dateColIdx rest acc
    else
      let rawCode := row.getD codeColIdx []
      let code := trimChars rawCode
      if code = [] ∨ code ∈ acc.map StockRef.rawCode then
        getUniqueStocksGo codeColIdx dateColIdx rest acc
      else
        getUniqueStocksGo codeColIdx dateColIdx rest
          (acc ++ [⟨toTicker rawCode, row.getD dateColIdx [], code⟩])

/-- Translation of getUniqueStocks: scan the rows building the map of first
occurrences, then return its values in insertion order. -/
def getUniqueStocks (rows : List (List Str)) (codeColIdx dateColIdx : ℕ) :
    List StockRef :=
  getUniqueStocksGo codeColIdx dateColIdx rows []

/-- Identifier carried by a row: its trimmed code cell, provided the row
reaches the code column and the trimmed cell is nonempty. -/
def rowCode (codeColIdx : ℕ) (row : List Str) : Option Str :=
  if row.length ≤ codeColIdx then none
  else
    let code := trimChars (row.getD codeColIdx [])
    if code = [] then none else some code

/-- Resolver written from the specification's words, for comparison with the
source translation: the first row carrying a given trimmed identifier
determines that identifier's StockRef, later rows with the same identifier
are dropped, and output order is first-seen order. -/
def resolveSpec (codeColIdx dateColIdx : ℕ) : List (List Str) → List StockRef
  | [] => []
  | row :: rest =>
    match rowCode codeColIdx row with
    | none => resolveSpec codeColIdx dateColIdx rest
    | some code =>
      ⟨toTicker (row.getD codeColIdx []), row.getD dateColIdx [], code⟩ ::
        resolveSpec codeColIdx dateColIdx
          (rest.filter (fun r => decide (rowCode codeColIdx r ≠ some code)))
termination_by l => l.length
decreasing_by
  · simp_wf
  · simp_wf
    have := List.length_filter_le
      (fun r => !decide (rowCode codeColIdx r = some code)) rest
    omega

/-- A row is fresh for an accumulator when its identifier differs from every
already-accumulated identifier. -/
def freshFor (ci : ℕ) (acc : List StockRef) (r : List Str) : Bool :=
  decide (∀ s ∈ acc, rowCode ci r ≠ some s.rawCode)

/-- Searching a filtered list equals searching the original list when the
search predicate entails the filter predicate. -/
theorem find?_filter_of_imp {α : Type} (p q : α → Bool)
    (himp : ∀ a, p a = true → q a = true) :
    ∀ l : List α, (l.filter q).find? p = l.find? p := by
  intro l
  induction l with
  | nil => simp
  | cons a tl ih =>
    cases hq : q a with
    | true =>
      rw [List.filter_cons_of_pos hq]
      cases hp : p a with
      | true => rw [List.find?_cons_of_pos _ hp, List.find?_cons_of_pos _ hp]
      | false =>
        rw [List.find?_cons_of_neg _ (by simp [hp]),
          List.find?_cons_of_neg _ (by simp [hp]), ih]
    | false =>
      rw [List.filter_cons_of_neg (by simp [hq])]
      have hp : p a = false := by
        cases hpa : p a with
        | true => exact absurd (himp a hpa) (by simp [hq])
        | false => rfl
      rw [List.find?_cons_of_neg _ (by simp [hp]), ih]

/-- The accumulator-passing loop of getUniqueStocks computes the appended
specification resolver on the rows still fresh for the accumulator. -/
theorem getUniqueStocksGo_eq (ci di : ℕ) :
    ∀ (rows : List (List Str)) (acc : List StockRef),
      getUniqueStocksGo ci di rows acc
        = acc ++ resolveSpec ci di (rows.filter (freshFor ci acc)) := by
  intro rows
  induction rows with
  | nil => intro acc; simp [getUniqueStocksGo, resolveSpec]
  | cons row rest ih =>
    intro acc
    by_cases h1 : row.length ≤ ci
    · have hrc : rowCode ci row = none := by
        simp only [rowCode]
        rw [if_pos h1]
      have hfresh : freshFor ci acc row = true := by
        simp [freshFor, hrc]
      have hgo : getUniqueStocksGo ci di (row :: rest) acc
          = getUniqueStocksGo ci di rest acc := by
        simp only [getUniqueStocksGo]; rw [if_pos h1]
      rw [hgo, ih, List.filter_cons_of_pos hfresh]
      congr 1
      rw [resolveSpec, hrc]
    · have h1' : ci < row.length := Nat.lt_of_not_le h1
      by_cases h2 : trimChars (row.getD ci []) = []
      · have hrc : rowCode ci row = none := by
          simp only [rowCode]
          rw [if_neg h1, if_pos h2]
        have hfresh : freshFor ci acc row = true := by simp [freshFor, hrc]
        have hgo : getUniqueStocksGo ci di (row :: rest) acc
            = getUniqueStocksGo ci di rest acc := by
          simp only [getUniqueStocksGo]
          rw [if_neg h1, if_pos (Or.inl h2)]
        rw [hgo, ih, List.filter_cons_of_pos hfresh]
        congr 1
        rw [resolveSpec, hrc]
      · have hrc : rowCode ci row = some (trimChars (row.getD ci [])) := by
          simp only [rowCode]
          rw [if_neg h1, if_neg h2]
        by_cases h3 : trimChars (row.getD ci []) ∈ acc.map StockRef.rawCode
        · have hfresh : freshFor ci acc row = false := by
            obtain ⟨s, hs, hsc⟩ := List.mem_map.mp h3
            simp only [freshFor, decide_eq_false_iff_not, not_forall]
            push_neg
            exact ⟨s, hs, by rw [hrc, hsc]⟩
          have hgo : getUniqueStocksGo ci di (row :: rest) acc
              = getUniqueStocksGo ci di rest acc := by
            simp only [getUniqueStocksGo]
            rw [if_neg h1, if_pos (Or.inr h3)]
          rw [hgo, ih, List.filter_cons_of_neg (by simp [hfresh])]
        · have hfresh : freshFor ci acc row = true := by
            simp only [freshFor, decide_eq_true_eq]
            intro s hs
            rw [hrc]
            intro hcontra
            exact h3 (List.mem_map.mpr ⟨s, hs, (Option.some.inj hcontra).symm⟩)
          have hgo : getUniqueStocksGo ci di (row :: rest) acc
              = getUniqueStocksGo ci di rest
                  (acc ++ [⟨toTicker (row.getD ci []), row.getD di [],
                    trimChars (row.getD ci [])⟩]) := by
            simp only [getUniqueStocksGo]
            rw [if_neg h1, if_neg (by push_neg; exact ⟨h2, h3⟩)]
          rw [hgo, ih, List.filter_cons_of_pos hfresh]
          rw [resolveSpec, hrc]
          have hff : rest.filter (freshFor ci (acc ++ [⟨toTicker (row.getD ci []),
              row.getD di [], trimChars (row.getD ci [])⟩]))
              = (rest.filter (freshFor ci acc)).filter
                  (fun r => decide (rowCode ci r ≠ some (trimChars (row.getD ci [])))) := by
            rw [List.filter_filter]
            apply List.filter_congr
            intro r hr
            simp only [freshFor, List.mem_append, List.mem_singleton]
            rw [Bool.and_comm, ← Bool.decide_and, decide_eq_decide]
            constructor
            · intro h
              exact ⟨fun s hs => h s (List.mem_append.mpr (Or.inl hs)),
                h _ (List.mem_append.mpr (Or.inr (List.mem_singleton_self _)))⟩
            · rintro ⟨hall, hne⟩ s hs
              rcases List.mem_append.mp hs with hs | hs
              · exact hall s hs
              · rw [List.mem_singleton.mp hs]
                exact hne
          rw [hff]
          simp

/-- Every resolved StockRef comes from the first row carrying its identifier:
searching the input for the identifier finds the row that supplied the
StockRef's ticker and date. -/
theorem resolveSpec_mem_spec (ci di : ℕ) :
    ∀ (n : ℕ) (l : List (List Str)), l.length ≤ n → ∀ s ∈ resolveSpec ci di l,
      ∃ row, l.find? (fun r => decide (rowCode ci r = some s.rawCode)) = some row
        ∧ rowCode ci row = some s.rawCode
        ∧ s.ticker = toTicker (row.getD ci []) ∧ s.date = row.getD di [] := by
  intro n
  induction n with
  | zero =>
    intro l hl s hs
    have : l = [] := List.length_eq_zero.mp (Nat.le_zero.mp hl)
    subst this
    simp [resolveSpec] at hs
  | succ n ih =>
    intro l hl s hs
    cases l with
    | nil => simp [resolveSpec] at hs
    | cons row rest =>
      cases hrc : rowCode ci row with
      | none =>
        rw [resolveSpec, hrc] at hs
        obtain ⟨row', hfind, hrc', hts, hdt⟩ := ih rest (by simp at hl; omega) s hs
        refine ⟨row', ?_, hrc', hts, hdt⟩
        rw [List.find?_cons_of_neg _ (by simp [hrc]), hfind]
      | some code =>
        rw [resolveSpec, hrc] at hs
        rcases List.mem_cons.mp hs with rfl | hs'
        · refine ⟨row, ?_, hrc, rfl, rfl⟩
          apply List.find?_cons_of_pos
          simp [hrc]
        · have hfl : (rest.filter (fun r => decide (rowCode ci r ≠ some code))).length ≤ n := by
            have := List.length_filter_le (fun r => decide (rowCode ci r ≠ some code)) rest
            simp at hl; omega
          obtain ⟨row', hfind, hrc', hts, hdt⟩ := ih _ hfl s hs'
          have hrowmem := List.mem_of_find?_eq_some hfind
          have hq : decide (rowCode ci row' ≠ some code) = true :=
            (List.mem_filter.mp hrowmem).2
          have hne : s.rawCode ≠ code := by
            intro h
            rw [h] at hrc'
            simp [hrc'] at hq
          have himp : ∀ r : List Str, decide (rowCode ci r = some s.rawCode) = true →
              decide (rowCode ci r ≠ some code) = true := by
            intro r hr
            simp only [decide_eq_true_eq] at hr ⊢
            rw [hr]
            intro hcon
            exact hne (Option.some.inj hcon)
          rw [find?_filter_of_imp _ _ himp rest] at hfind
          refine ⟨row', ?_, hrc', hts, hdt⟩
          have hhead : ¬ ((fun r => decide (rowCode ci r = some s.rawCode)) row = true) := by
            simp only [hrc, decide_eq_true_eq]
            intro h
            exact hne (Option.some.inj h).symm
          have hcons : List.find? (fun r => decide (rowCode ci r = some s.rawCode))
                (row :: rest)
              = List.find? (fun r => decide (rowCode ci r = some s.rawCode)) rest :=
            List.find?_cons_of_neg rest hhead
          rw [hcons, hfind]

/-- The specification resolver yields pairwise distinct identifiers. -/
theorem resolveSpec_nodup (ci di : ℕ) :
    ∀ (n : ℕ) (l : List (List Str)), l.length ≤ n →
      ((resolveSpec ci di l).map StockRef.rawCode).Nodup := by
  intro n
  induction n with
  | zero =>
    intro l hl
    have : l = [] := List.length_eq_zero.mp (Nat.le_zero.mp hl)
    subst this
    simp [resolveSpec]
  | succ n ih =>
    intro l hl
    cases l with
    | nil => simp [resolveSpec]
    | cons row rest =>
      cases hrc : rowCode ci row with
      | none =>
        rw [resolveSpec, hrc]
        exact ih rest (by simp at hl; omega)
      | some code =>
        rw [resolveSpec, hrc]
        have hfl : (rest.filter (fun r => decide (rowCode ci r ≠ some code))).length ≤ n := by
          have := List.length_filter_le (fun r => decide (rowCode ci r ≠ some code)) rest
          simp at hl; omega
        simp only [List.map_cons, List.nodup_cons]
        refine ⟨?_, ih _ hfl⟩
        intro hmem
        obtain ⟨s, hs, hsc⟩ := List.mem_map.mp hmem
        obtain ⟨row', hfind, hrc', -, -⟩ := resolveSpec_mem_spec ci di n _ hfl s hs
        have hq : decide (rowCode ci row' ≠ some code) = true :=
          (List.mem_filter.mp (List.mem_of_find?_eq_some hfind)).2
        rw [hsc] at hrc'
        simp [hrc'] at hq

/-- Every identifier carried by some row is represented in the resolver
output. -/
theorem resolveSpec_covers (ci di : ℕ) :
    ∀ (n : ℕ) (l : List (List Str)), l.length ≤ n → ∀ (c : Str) (row : List Str),
      row ∈ l → rowCode ci row = some c →
      ∃ s ∈ resolveSpec ci di l, s.rawCode = c := by
  intro n
  induction n with
  | zero =>
    intro l hl c row hrow hrc
    have : l = [] := List.length_eq_zero.mp (Nat.le_zero.mp hl)
    subst this
    simp at hrow
  | succ n ih =>
    intro l hl c row hrow hrc
    cases l with
    | nil => simp at hrow
    | cons row0 rest =>
      cases hrc0 : rowCode ci row0 with
      | none =>
        rw [resolveSpec, hrc0]
        rcases List.mem_cons.mp hrow with rfl | hrow'
        · rw [hrc0] at hrc
          exact absurd hrc (by simp)
        · exact ih rest (by simp at hl; omega) c row hrow' hrc
      | some code =>
        rw [resolveSpec, hrc0]
        by_cases hc : c = code
        · subst hc
          exact ⟨_, List.mem_cons_self _ _, rfl⟩
        · rcases List.mem_cons.mp hrow with rfl | hrow'
          · rw [hrc0] at hrc
            exact absurd (Option.some.inj hrc).symm hc
          · have hfl : (rest.filter
                (fun r => decide (rowCode ci r ≠ some code))).length ≤ n := by
              have := List.length_filter_le
                (fun r => decide (rowCode ci r ≠ some code)) rest
              simp at hl; omega
            have hrowf : row ∈ rest.filter (fun r => decide (rowCode ci r ≠ some code)) := by
              apply List.mem_filter.mpr
              refine ⟨hrow', ?_⟩
              simp only [decide_eq_true_eq]
              rw [hrc]
              intro hcon
              exact hc (Option.some.inj hcon)
            obtain ⟨s, hsmem, hsc⟩ := ih _ hfl c row hrowf hrc
            exact ⟨s, List.mem_cons_of_mem _ hsmem, hsc⟩

/-- C5.  Resolver deduplication: the source resolver agrees with the
first-occurrence-wins specification resolver; the resolved identifiers are
pairwise distinct; every StockRef carries the ticker and date of the first
row with its identifier; and an identifier is resolved exactly when some row
carries it.  In particular identifiers ["100","100","200"] with dates
["2024/01/01","2024/01/02","2024/02/01"] yield exactly the two StockRefs
whose first, for "100", carries "2024/01/01". -/
theorem getUniqueStocks_spec :
    (∀ (rows : List (List Str)) (ci di : ℕ),
      getUniqueStocks rows ci di = resolveSpec ci di rows
      ∧ ((getUniqueStocks rows ci di).map StockRef.rawCode).Nodup
      ∧ (∀ s ∈ getUniqueStocks rows ci di,
          ∃ row, rows.find? (fun r => decide (rowCode ci r = some s.rawCode)) = some row
            ∧ rowCode ci row = some s.rawCode
            ∧ s.ticker = toTicker (row.getD ci []) ∧ s.date = row.getD di [])
      ∧ (∀ c : Str, (∃ row ∈ rows, rowCode ci row = some c)
            ↔ ∃ s ∈ getUniqueStocks rows ci di, s.rawCode = c))
    ∧ getUniqueStocks
        [["100".toList, "2024/01/01".toList], ["100".toList, "2024/01/02".toList],
         ["200".toList, "2024/02/01".toList]] 0 1
      = [⟨none, "2024/01/01".toList, "100".toList⟩,
         ⟨none, "2024/02/01".toList, "200".toList⟩] := by
  have hmain : ∀ (rows : List (List Str)) (ci di : ℕ),
      getUniqueStocks rows ci di = resolveSpec ci di rows := by
    intro rows ci di
    have h := getUniqueStocksGo_eq ci di rows []
    have hf : rows.filter (freshFor ci []) = rows := by
      apply List.filter_eq_self.mpr
      intro r hr
      simp [freshFor]
    rw [getUniqueStocks, h, hf]
    simp
  refine ⟨?_, by decide⟩
  intro rows ci di
  refine ⟨hmain rows ci di, ?_, ?_, ?_⟩
  · rw [hmain rows ci di]
    exact resolveSpec_nodup ci di rows.length rows le_rfl
  · rw [hmain rows ci di]
    exact fun s hs => resolveSpec_mem_spec ci di rows.length rows le_rfl s hs
  · intro c
    rw [hmain rows ci di]
    constructor
    · rintro ⟨row, hrow, hrc⟩
      exact resolveSpec_covers ci di rows.length rows le_rfl c row hrow hrc
    · rintro ⟨s, hs, rfl⟩
      obtain ⟨row, hfind, hrc, -, -⟩ :=
        resolveSpec_mem_spec ci di rows.length rows le_rfl s hs
      exact ⟨row, List.mem_of_find?_eq_some hfind, hrc⟩

/-- Closed witness for C5: the first-occurrence property at the resolver's
concrete example rows, for the StockRef of identifier "100". -/
theorem getUniqueStocks_spec_witness :
    ∃ row, [["100".toList, "2024/01/01".toList], ["100".toList, "2024/01/02".toList],
        ["200".toList, "2024/02/01".toList]].find?
          (fun r => decide (rowCode 0 r
            = some (StockRef.mk none ("2024/01/01".toList) ("100".toList)).rawCode))
        = some row
      ∧ rowCode 0 row = some (StockRef.mk none ("2024/01/01".toList) ("100".toList)).rawCode
      ∧ (StockRef.mk none ("2024/01/01".toList) ("100".toList)).ticker
          = toTicker (row.getD 0 [])
      ∧ (StockRef.mk none ("2024/01/01".toList) ("100".toList)).date = row.getD 1 [] :=
  ((getUniqueStocks_spec.1
      [["100".toList, "2024/01/01".toList], ["100".toList, "2024/01/02".toList],
       ["200".toList, "2024/02/01".toList]] 0 1).2.2.1
    ⟨none, "2024/01/01".toList, "100".toList⟩ (by decide))

-- ============================================
-- fetchClosingPrice (src/app.js lines 262-352)
-- ============================================

/-- Decimal digit character: the character with code 48 + d. -/
def digitChar (d : ℕ) : Char := Char.ofNat (48 + d)

/-- Fuel-driven base-10 digit printer (most significant digit first); the
fuel bounds the number of divisions and always suffices below. -/
def natToCharsAux : ℕ → ℕ → List Char → List Char
  | 0, _, acc => acc
  | fuel + 1, n, acc =>
    if n < 10 then digitChar n :: acc
    else natToCharsAux fuel (n / 10) (digitChar (n % 10) :: acc)

/-- Decimal representation of a natural number, as JavaScript String(n). -/
def natToChars (n : ℕ) : List Char := natToCharsAux (n + 1) n []

/-- Parsed chart entry of the upstream response: chart.result[0] with its
possibly absent timestamp array, close array (inside
indicators.quote[0].close) and dividend events map. -/
structure ChartResult where
  timestamp : Option (List ℤ)
  close : Option (List (Option ℚ))
  dividends : Option (List (ℤ × ℚ))
deriving DecidableEq

/-- The chart object with its possibly absent result array. -/
structure Chart where
  result : Option (List ChartResult)
deriving DecidableEq

/-- Top-level parsed response body, with possibly absent chart. -/
structure ChartData where
  chart : Option Chart
deriving DecidableEq

/-- Transport-level response: HTTP ok flag and status, and the parsed JSON
body; none models a body on which response.json() throws (empty or
malformed body). -/
structure FetchResponse where
  ok : Bool
  status : ℕ
  body : Option ChartData
deriving DecidableEq

/-- Result record of fetchClosingPrice.  actualDate holds the selected raw
timestamp (the source formats it as a YYYY/MM/DD string; the formatting is
presentation only). -/
structure FetchResult where
  price : Option ℚ
  dividend : Option ℚ
  actualDate : Option ℤ
  change1d : Option ℚ
  change7d : Option ℚ
  change14d : Option ℚ
  change30d : Option ℚ
  error : Option Str
deriving DecidableEq

/-- The all-null template result of fetchClosingPrice. -/
def nullResult : FetchResult := ⟨none, none, none, none, none, none, none, none⟩

/-- Error message for a null or empty ticker. -/
def invalidTickerMsg : Str := "無効なティッカー".toList

/-- Error message for an HTTP failure, carrying the status code. -/
def httpErrMsg (status : ℕ) : Str := "HTTP ".toList ++ natToChars status

/-- Error message when chart or chart.result is missing or empty. -/
def noDataMsg : Str := "データなし".toList

/-- Error message when the timestamp or close array is missing or empty. -/
def noChartMsg : Str := "チャートデータなし".toList

/-- Error message when no entry has a non-null close. -/
def noValidCloseMsg : Str := "有効な終値なし".toList

/-- Message of the exception thrown by response.json() on a malformed body,
surfaced by the catch-all as err.message; the concrete runtime text varies,
modelled by the standard V8 message. -/
def jsonThrowMsg : Str := "Unexpected end of JSON input".toList

/-- Dividend-selection loop of fetchClosingPrice: keep the amount of the
event whose timestamp has the smallest absolute difference to the target
(first such event on ties), scanning the entries in order. -/
def divLoop (targetTs : ℤ) : List (ℤ × ℚ) → Option (ℤ × ℚ) → Option ℚ
  | [], st => st.map Prod.snd
  | (ts, amt) :: rest, st =>
    match st with
    | none => divLoop targetTs rest (some (|targetTs - ts|, amt))
    | some (bd, ba) =>
      if |targetTs - ts| < bd then divLoop targetTs rest (some (|targetTs - ts|, amt))
      else divLoop targetTs rest (some (bd, ba))

/-- Translation of fetchClosingPrice.  The date-string to Unix-timestamp
conversion is environment state (Date parsing); the function therefore takes
the already-converted target timestamp.  The network exchange is modelled by
the response argument; the second component of the result is the request
window (period1, period2) actually issued, none when no request was made. -/
def fetchClosingPrice (ticker : Option Str) (targetTs : ℤ) (resp : FetchResponse) :
    FetchResult × Option (ℤ × ℤ) :=
  if ticker = none ∨ ticker = some [] then
    ({ nullResult with error := some invalidTickerMsg }, none)
  else
    let startTs := targetTs - 45 * 86400
    let endTs := targetTs + 14 * 86400
    let req := some (startTs, endTs)
    if resp.ok = false then
      ({ nullResult with error := some (httpErrMsg resp.status) }, req)
    else
      match resp.body with
      | none => ({ nullResult with error := some jsonThrowMsg }, req)
      | some data =>
        match data.chart with
        | none => ({ nullResult with error := some noDataMsg }, req)
        | some chart =>
          match chart.result with
          | none => ({ nullResult with error := some noDataMsg }, req)
          | some [] => ({ nullResult with error := some noDataMsg }, req)
          | some (result :: _) =>
            let timestamps := result.timestamp.getD []
            let closes := result.close.getD []
            if timestamps = [] ∨ closes = [] then
              ({ nullResult with error := some noChartMsg }, req)
            else
              match findClosestPriceWithIndex timestamps closes targetTs with
              | (some currentPrice, some baseIdx) =>
                ({ price := some ((jsRound (currentPrice * 10) : ℚ) / 10),
                   dividend :=
                     (match result.dividends with
                      | none => none
                      | some entries => divLoop targetTs entries none).map
                       (fun a => (jsRound (a * 100) : ℚ) / 100),
                   actualDate := some (timestamps.getD baseIdx 0),
                   change1d := calcChangeRate (some currentPrice)
                     (findPriceNTradingDaysBack closes baseIdx 1),
                   change7d := calcChangeRate (some currentPrice)
                     (findPriceNTradingDaysBack closes baseIdx 5),
                   change14d := calcChangeRate (some currentPrice)
                     (findPriceNTradingDaysBack closes baseIdx 10),
                   change30d := calcChangeRate (some currentPrice)
                     (findPriceNTradingDaysBack closes baseIdx 21),
                   error := none }, req)
              | _ => ({ nullResult with error := some noValidCloseMsg }, req)

/-- If every close is null, the selection returns no price and no index. -/
theorem findClosest_all_none (timestamps : List ℤ) (closes : List (Option ℚ)) (t : ℤ)
    (hall : ∀ c ∈ closes, c = none) :
    findClosestPriceWithIndex timestamps closes t = (none, none) := by
  have h1 : pass1 t (timestamps.zip closes) 0 none = none :=
    (pass1_none_iff t _ 0 none).mpr
      ⟨rfl, fun p hp hok => hok.1 (hall p.2 (List.of_mem_zip hp).2)⟩
  have h2 : pass2 t (timestamps.zip closes) 0 none = none :=
    (pass2_none_iff t _ 0 none).mpr ⟨rfl, fun p hp => hall p.2 (List.of_mem_zip hp).2⟩
  simp [findClosestPriceWithIndex, h1, h2]

/-- The HTTP error message is never the empty string. -/
theorem httpErrMsg_ne_nil (status : ℕ) : httpErrMsg status ≠ [] := by
  intro h
  have : ("HTTP ".toList : List Char) = [] := (List.append_eq_nil.mp h).1
  simp at this

/-- Branch analysis of fetchClosingPrice: the invalid-ticker result, the
request window on every other path, the all-null-or-success shape of the
result, and the exact characterisation of the success path. -/
theorem fetchClosingPrice_analysis (ticker : Option Str) (targetTs : ℤ)
    (resp : FetchResponse) :
    ((ticker = none ∨ ticker = some []) →
      fetchClosingPrice ticker targetTs resp
        = ({ nullResult with error := some invalidTickerMsg }, none))
    ∧ (¬(ticker = none ∨ ticker = some []) →
        (fetchClosingPrice ticker targetTs resp).2
          = some (targetTs - 45 * 86400, targetTs + 14 * 86400))
    ∧ ((∃ msg, msg ≠ [] ∧ (fetchClosingPrice ticker targetTs resp).1
          = { nullResult with error := some msg })
        ∨ ((fetchClosingPrice ticker targetTs resp).1.error = none
          ∧ ∃ p, (fetchClosingPrice ticker targetTs resp).1.price = some p))
    ∧ ((fetchClosingPrice ticker targetTs resp).1.error = none ↔
        (¬(ticker = none ∨ ticker = some []) ∧ resp.ok = true ∧
          ∃ data ch r rs, resp.body = some data ∧ data.chart = some ch
            ∧ ch.result = some (r :: rs)
            ∧ ¬(r.timestamp.getD [] = [] ∨ r.close.getD [] = [])
            ∧ ∃ p i, findClosestPriceWithIndex (r.timestamp.getD [])
                (r.close.getD []) targetTs = (some p, some i))) := by
  by_cases hv : ticker = none ∨ ticker = some []
  · have hres : fetchClosingPrice ticker targetTs resp
        = ({ nullResult with error := some invalidTickerMsg }, none) := by
      simp only [fetchClosingPrice]
      rw [if_pos hv]
    refine ⟨fun _ => hres, fun hnv => absurd hv hnv, ?_, ?_⟩
    · exact Or.inl ⟨invalidTickerMsg, by decide, by rw [hres]⟩
    · rw [hres]
      constructor
      · intro h; simp [invalidTickerMsg] at h
      · rintro ⟨hnv, -⟩; exact absurd hv hnv
  · cases hok : resp.ok with
    | false =>
      have hres : fetchClosingPrice ticker targetTs resp
          = ({ nullResult with error := some (httpErrMsg resp.status) },
             some (targetTs - 45 * 86400, targetTs + 14 * 86400)) := by
        simp [fetchClosingPrice, hv, hok]
      refine ⟨fun h => absurd h hv, fun _ => by rw [hres], ?_, ?_⟩
      · exact Or.inl ⟨httpErrMsg resp.status, httpErrMsg_ne_nil _, by rw [hres]⟩
      · rw [hres]
        constructor
        · intro h; simp at h
        · rintro ⟨-, hok', -⟩
          exact absurd hok' (by simp)
    | true =>
      cases hbody : resp.body with
      | none =>
        have hres : fetchClosingPrice ticker targetTs resp
            = ({ nullResult with error := some jsonThrowMsg },
               some (targetTs - 45 * 86400, targetTs + 14 * 86400)) := by
          simp [fetchClosingPrice, hv, hok, hbody]
        refine ⟨fun h => absurd h hv, fun _ => by rw [hres], ?_, ?_⟩
        · exact Or.inl ⟨jsonThrowMsg, by decide, by rw [hres]⟩
        · rw [hres]
          constructor
          · intro h; simp [jsonThrowMsg] at h
          · rintro ⟨-, -, data, -, -, -, hd, -⟩
            exact absurd hd (by simp)
      | some data =>
        cases hchart : data.chart with
        | none =>
          have hres : fetchClosingPrice ticker targetTs resp
              = ({ nullResult with error := some noDataMsg },
                 some (targetTs - 45 * 86400, targetTs + 14 * 86400)) := by
            simp [fetchClosingPrice, hv, hok, hbody, hchart]
          refine ⟨fun h => absurd h hv, fun _ => by rw [hres], ?_, ?_⟩
          · exact Or.inl ⟨noDataMsg, by decide, by rw [hres]⟩
          · rw [hres]
            constructor
            · intro h; simp [noDataMsg] at h
            · rintro ⟨-, -, data', ch', -, -, hd, hc, -⟩
              rw [← Option.some.inj hd, hchart] at hc
              exact absurd hc (by simp)
        | some ch =>
          cases hcr : ch.result with
          | none =>
            have hres : fetchClosingPrice ticker targetTs resp
                = ({ nullResult with error := some noDataMsg },
                   some (targetTs - 45 * 86400, targetTs + 14 * 86400)) := by
              simp [fetchClosingPrice, hv, hok, hbody, hchart, hcr]
            refine ⟨fun h => absurd h hv, fun _ => by rw [hres], ?_, ?_⟩
            · exact Or.inl ⟨noDataMsg, by decide, by rw [hres]⟩
            · rw [hres]
              constructor
              · intro h; simp [noDataMsg] at h
              · rintro ⟨-, -, data', ch', r, rs, hd, hc, hr, -⟩
                rw [← Option.some.inj hd, hchart] at hc
                rw [← Option.some.inj hc, hcr] at hr
                exact absurd hr (by simp)
          | some results =>
            cases results with
            | nil =>
              have hres : fetchClosingPrice ticker targetTs resp
                  = ({ nullResult with error := some noDataMsg },
                     some (targetTs - 45 * 86400, targetTs + 14 * 86400)) := by
                simp [fetchClosingPrice, hv, hok, hbody, hchart, hcr]
              refine ⟨fun h => absurd h hv, fun _ => by rw [hres], ?_, ?_⟩
              · exact Or.inl ⟨noDataMsg, by decide, by rw [hres]⟩
              · rw [hres]
                constructor
                · intro h; simp [noDataMsg] at h
                · rintro ⟨-, -, data', ch', r, rs, hd, hc, hr, -⟩
                  rw [← Option.some.inj hd, hchart] at hc
                  rw [← Option.some.inj hc, hcr] at hr
                  exact absurd (Option.some.inj hr) (by simp)
            | cons r rs =>
              by_cases hempty : r.timestamp.getD [] = [] ∨ r.close.getD [] = []
              · have hres : fetchClosingPrice ticker targetTs resp
                    = ({ nullResult with error := some noChartMsg },
                       some (targetTs - 45 * 86400, targetTs + 14 * 86400)) := by
                  simp only [fetchClosingPrice]
                  rw [if_neg hv]
                  simp only [hok, hbody, hchart, hcr]
                  rw [if_neg (by simp), if_pos hempty]
                refine ⟨fun h => absurd h hv, fun _ => by rw [hres], ?_, ?_⟩
                · exact Or.inl ⟨noChartMsg, by decide, by rw [hres]⟩
                · rw [hres]
                  constructor
                  · intro h; simp [noChartMsg] at h
                  · rintro ⟨-, -, data', ch', r', rs', hd, hc, hr, hne, -⟩
                    rw [← Option.some.inj hd, hchart] at hc
                    rw [← Option.some.inj hc, hcr] at hr
                    have hrr : r = r' := (List.cons.inj (Option.some.inj hr)).1
                    rw [← hrr] at hne
                    exact absurd hempty hne
              · cases hfc : findClosestPriceWithIndex (r.timestamp.getD [])
                    (r.close.getD []) targetTs with
                | mk op oi =>
                  cases op with
                  | none =>
                    have hres : fetchClosingPrice ticker targetTs resp
                        = ({ nullResult with error := some noValidCloseMsg },
                           some (targetTs - 45 * 86400, targetTs + 14 * 86400)) := by
                      simp only [fetchClosingPrice]
                      rw [if_neg hv]
                      simp only [hok, hbody, hchart, hcr]
                      rw [if_neg (by simp), if_neg hempty, hfc]
                    refine ⟨fun h => absurd h hv, fun _ => by rw [hres], ?_, ?_⟩
                    · exact Or.inl ⟨noValidCloseMsg, by decide, by rw [hres]⟩
                    · rw [hres]
                      constructor
                      · intro h; simp [noValidCloseMsg] at h
                      · rintro ⟨-, -, data', ch', r', rs', hd, hc, hr, -, p', i', hfc'⟩
                        rw [← Option.some.inj hd, hchart] at hc
                        rw [← Option.some.inj hc, hcr] at hr
                        have hrr : r = r' := (List.cons.inj (Option.some.inj hr)).1
                        rw [← hrr, hfc] at hfc'
                        exact absurd (congrArg Prod.fst hfc') (by simp)
                  | some p =>
                    cases oi with
                    | none =>
                      have hres : fetchClosingPrice ticker targetTs resp
                          = ({ nullResult with error := some noValidCloseMsg },
                             some (targetTs - 45 * 86400, targetTs + 14 * 86400)) := by
                        simp only [fetchClosingPrice]
                        rw [if_neg hv]
                        simp only [hok, hbody, hchart, hcr]
                        rw [if_neg (by simp), if_neg hempty, hfc]
                      refine ⟨fun h => absurd h hv, fun _ => by rw [hres], ?_, ?_⟩
                      · exact Or.inl ⟨noValidCloseMsg, by decide, by rw [hres]⟩
                      · rw [hres]
                        constructor
                        · intro h; simp [noValidCloseMsg] at h
                        · rintro ⟨-, -, data', ch', r', rs', hd, hc, hr, -, p', i', hfc'⟩
                          rw [← Option.some.inj hd, hchart] at hc
                          rw [← Option.some.inj hc, hcr] at hr
                          have hrr : r = r' := (List.cons.inj (Option.some.inj hr)).1
                          rw [← hrr, hfc] at hfc'
                          exact absurd (congrArg Prod.snd hfc') (by simp)
                    | some i =>
                      have herr : (fetchClosingPrice ticker targetTs resp).1.error
                          = none := by
                        simp only [fetchClosingPrice]
                        rw [if_neg hv]
                        simp only [hok, hbody, hchart, hcr]
                        rw [if_neg (by simp), if_neg hempty, hfc]
                      have hprice : (fetchClosingPrice ticker targetTs resp).1.price
                          = some ((jsRound (p * 10) : ℚ) / 10) := by
                        simp only [fetchClosingPrice]
                        rw [if_neg hv]
                        simp only [hok, hbody, hchart, hcr]
                        rw [if_neg (by simp), if_neg hempty, hfc]
                      have hreq : (fetchClosingPrice ticker targetTs resp).2
                          = some (targetTs - 45 * 86400, targetTs + 14 * 86400) := by
                        simp only [fetchClosingPrice]
                        rw [if_neg hv]
                        simp only [hok, hbody, hchart, hcr]
                        rw [if_neg (by simp), if_neg hempty, hfc]
                      refine ⟨fun h => absurd h hv, fun _ => hreq,
                        Or.inr ⟨herr, _, hprice⟩, ?_⟩
                      rw [herr]
                      simp only [true_iff]
                      exact ⟨hv, by trivial, data, ch, r, rs, by trivial, hchart,
                        hcr, hempty, p, i, hfc⟩

/-- C6.  Request window: for every ticker and target date, the price-series
request issued by fetchClosingPrice starts exactly 45 days (45 * 86400
seconds) before the target timestamp and ends exactly 14 days (14 * 86400
seconds) after it. -/
theorem fetchClosingPrice_window :
    ∀ (ticker : Option Str) (targetTs : ℤ) (resp : FetchResponse),
      ¬ (ticker = none ∨ ticker = some []) →
      (fetchClosingPrice ticker targetTs resp).2
        = some (targetTs - 45 * 86400, targetTs + 14 * 86400) :=
  fun ticker targetTs resp hv =>
    (fetchClosingPrice_analysis ticker targetTs resp).2.1 hv

/-- Closed witness for C6: the window issued for a concrete ticker and
target timestamp 0, independent of the response. -/
theorem fetchClosingPrice_window_witness :
    (fetchClosingPrice (some ("8227.T".toList)) 0 ⟨false, 404, none⟩).2
      = some (0 - 45 * 86400, 0 + 14 * 86400) :=
  fetchClosingPrice_window (some ("8227.T".toList)) 0 ⟨false, 404, none⟩ (by decide)

/-- C8.  Lookup totality and failure shape: a null or empty ticker returns
the all-null result with the invalid-ticker error and no request; whenever
the error is set all numeric fields are null; a non-ok status, a body on
which JSON parsing throws, a missing or empty chart result, an empty series,
and an all-null close series each force a non-null error; and a null error
implies a non-null price (the success path). -/
theorem fetchClosingPrice_total :
    ∀ (ticker : Option Str) (targetTs : ℤ) (resp : FetchResponse),
      ((ticker = none ∨ ticker = some []) →
        fetchClosingPrice ticker targetTs resp
          = ({ nullResult with error := some invalidTickerMsg }, none))
      ∧ ((fetchClosingPrice ticker targetTs resp).1.error ≠ none →
          ((fetchClosingPrice ticker targetTs resp).1.price = none
           ∧ (fetchClosingPrice ticker targetTs resp).1.dividend = none
           ∧ (fetchClosingPrice ticker targetTs resp).1.actualDate = none
           ∧ (fetchClosingPrice ticker targetTs resp).1.change1d = none
           ∧ (fetchClosingPrice ticker targetTs resp).1.change7d = none
           ∧ (fetchClosingPrice ticker targetTs resp).1.change14d = none
           ∧ (fetchClosingPrice ticker targetTs resp).1.change30d = none))
      ∧ (resp.ok = false → (fetchClosingPrice ticker targetTs resp).1.error ≠ none)
      ∧ (resp.body = none → (fetchClosingPrice ticker targetTs resp).1.error ≠ none)
      ∧ (∀ data, resp.body = some data →
          (data.chart = none ∨ data.chart.bind Chart.result = none
            ∨ data.chart.bind Chart.result = some []) →
          (fetchClosingPrice ticker targetTs resp).1.error ≠ none)
      ∧ (∀ data ch r rs, resp.body = some data → data.chart = some ch →
          ch.result = some (r :: rs) →
          (r.timestamp.getD [] = [] ∨ r.close.getD [] = []) →
          (fetchClosingPrice ticker targetTs resp).1.error ≠ none)
      ∧ (∀ data ch r rs, resp.body = some data → data.chart = some ch →
          ch.result = some (r :: rs) → (∀ c ∈ r.close.getD [], c = none) →
          (fetchClosingPrice ticker targetTs resp).1.error ≠ none)
      ∧ ((fetchClosingPrice ticker targetTs resp).1.error = none →
          ∃ p, (fetchClosingPrice ticker targetTs resp).1.price = some p) := by
  intro ticker targetTs resp
  obtain ⟨hinv, hreq, hshape, hsucc⟩ := fetchClosingPrice_analysis ticker targetTs resp
  refine ⟨hinv, ?_, ?_, ?_, ?_, ?_, ?_, ?_⟩
  · intro herr
    rcases hshape with ⟨msg, -, hres⟩ | ⟨he, -⟩
    · rw [hres]
      simp [nullResult]
    · exact absurd he herr
  · intro hokf he
    obtain ⟨-, hok, -⟩ := hsucc.mp he
    rw [hokf] at hok
    exact absurd hok (by simp)
  · intro hb he
    obtain ⟨-, -, data, -, -, -, hd, -⟩ := hsucc.mp he
    rw [hb] at hd
    exact absurd hd (by simp)
  · intro data hd hbad he
    obtain ⟨-, -, data', ch', r', rs', hd', hc', hr', -⟩ := hsucc.mp he
    rw [hd] at hd'
    rw [← Option.some.inj hd'] at hc'
    rcases hbad with hb1 | hb2 | hb3
    · rw [hb1] at hc'
      exact absurd hc' (by simp)
    · rw [hc'] at hb2
      simp only [Option.some_bind] at hb2
      rw [hb2] at hr'
      exact absurd hr' (by simp)
    · rw [hc'] at hb3
      simp only [Option.some_bind] at hb3
      rw [hb3] at hr'
      exact absurd (Option.some.inj hr') (by simp)
  · intro data ch r rs hd hc hr hbad he
    obtain ⟨-, -, data', ch', r', rs', hd', hc', hr', hne', -⟩ := hsucc.mp he
    rw [hd] at hd'
    rw [← Option.some.inj hd'] at hc'
    rw [hc] at hc'
    rw [← Option.some.inj hc'] at hr'
    rw [hr] at hr'
    have hrr : r = r' := (List.cons.inj (Option.some.inj hr')).1
    rw [← hrr] at hne'
    exact hne' hbad
  · intro data ch r rs hd hc hr hall he
    obtain ⟨-, -, data', ch', r', rs', hd', hc', hr', -, p, i, hfc⟩ := hsucc.mp he
    rw [hd] at hd'
    rw [← Option.some.inj hd'] at hc'
    rw [hc] at hc'
    rw [← Option.some.inj hc'] at hr'
    rw [hr] at hr'
    have hrr : r = r' := (List.cons.inj (Option.some.inj hr')).1
    rw [← hrr] at hfc
    rw [findClosest_all_none _ _ _ hall] at hfc
    exact absurd (congrArg Prod.fst hfc) (by simp)
  · intro he
    rcases hshape with ⟨msg, -, hres⟩ | ⟨-, hp⟩
    · rw [hres] at he
      simp at he
    · exact hp

/-- Closed witness for C8: the invalid-ticker branch at the null ticker. -/
theorem fetchClosingPrice_total_witness :
    fetchClosingPrice none 0 ⟨true, 200, none⟩
      = ({ nullResult with error := some invalidTickerMsg }, none) :=
  (fetchClosingPrice_total none 0 ⟨true, 200, none⟩).1 (Or.inl rfl)

-- ============================================
-- fetchAllPrices effects (src/app.js lines 358-409, 440-447)
-- ============================================

/-- Error record accumulated by fetchAllPrices for a failed lookup. -/
structure ErrorRecord where
  code : Str
  ticker : Str
  error : Str
deriving DecidableEq

/-- Displayed ticker in an ErrorRecord: the expression stock.ticker || 'N/A'
(null and the empty string are both falsy). -/
def tickerDisplay (t : Option Str) : Str :=
  match t with
  | none => "N/A".toList
  | some s => if s = [] then "N/A".toList else s

/-- JavaScript truthiness of the error field as tested by
if (result.error): non-null and nonempty. -/
def errTruthy : Option Str → Bool
  | none => false
  | some e => !e.isEmpty

/-- Object assignment closingPrices[code] = result: replace the entry if the
key exists (keeping its original position), else append. -/
def upsert (m : List (Str × FetchResult)) (k : Str) (v : FetchResult) :
    List (Str × FetchResult) :=
  if m.any (fun p => decide (p.1 = k)) then
    m.map (fun p => if p.1 = k then (k, v) else p)
  else m ++ [(k, v)]

/-- Per-stock effects of the loop body of fetchAllPrices over the whole
stock list: record the result under the stock's key and append an
ErrorRecord when the error field is truthy.  Batching only groups these
per-item steps; the resulting map entries and error-list length do not
depend on the grouping.  Each stock's target timestamp and upstream
response are supplied by environment functions. -/
def runAll (tsOf : StockRef → ℤ) (respOf : StockRef → FetchResponse) :
    List StockRef → List (Str × FetchResult) → List ErrorRecord →
    List (Str × FetchResult) × List ErrorRecord
  | [], acc, errs => (acc, errs)
  | s :: rest, acc, errs =>
    let r := (fetchClosingPrice s.ticker (tsOf s) (respOf s)).1
    runAll tsOf respOf rest (upsert acc s.rawCode r)
      (if errTruthy r.error then
        errs ++ [⟨s.rawCode, tickerDisplay s.ticker, r.error.getD []⟩]
       else errs)

/-- Counting invariant of the fetch loop: with fresh, pairwise-distinct keys
the number of null-price entries recorded equals the number of error records
appended. -/
theorem runAll_count (tsOf : StockRef → ℤ) (respOf : StockRef → FetchResponse) :
    ∀ (stocks : List StockRef) (acc : List (Str × FetchResult))
      (errs : List ErrorRecord),
      (∀ s ∈ stocks, ∀ q ∈ acc, q.1 ≠ s.rawCode) →
      (stocks.map StockRef.rawCode).Nodup →
      acc.countP (fun p => decide (p.2.price = none)) = errs.length →
      ((runAll tsOf respOf stocks acc errs).1.countP
          (fun p => decide (p.2.price = none)))
        = (runAll tsOf respOf stocks acc errs).2.length := by
  intro stocks
  induction stocks with
  | nil => intro acc errs _ _ h; simpa [runAll] using h
  | cons s rest ih =>
    intro acc errs hfresh hnd hcount
    have hnd' : s.rawCode ∉ rest.map StockRef.rawCode
        ∧ (rest.map StockRef.rawCode).Nodup := by
      simpa [List.nodup_cons] using hnd
    have hany : acc.any (fun p => decide (p.1 = s.rawCode)) = false := by
      rw [List.any_eq_false]
      intro p hp
      simp only [decide_eq_true_eq]
      exact hfresh s (List.mem_cons_self _ _) p hp
    have hupsert : upsert acc s.rawCode
          (fetchClosingPrice s.ticker (tsOf s) (respOf s)).1
        = acc ++ [(s.rawCode, (fetchClosingPrice s.ticker (tsOf s) (respOf s)).1)] := by
      rw [upsert, if_neg (by simp [hany])]
    have hpe : decide ((fetchClosingPrice s.ticker (tsOf s) (respOf s)).1.price = none)
        = errTruthy (fetchClosingPrice s.ticker (tsOf s) (respOf s)).1.error := by
      rcases (fetchClosingPrice_analysis s.ticker (tsOf s) (respOf s)).2.2.1 with
        ⟨msg, hmsg, hres⟩ | ⟨he, p, hp⟩
      · rw [hres]
        simp [nullResult, errTruthy, hmsg]
      · rw [he, hp]
        simp [errTruthy]
    simp only [runAll]
    rw [hupsert]
    apply ih
    · intro s' hs' q hq
      rcases List.mem_append.mp hq with hq | hq
      · exact hfresh s' (List.mem_cons_of_mem _ hs') q hq
      · rw [List.mem_singleton.mp hq]
        intro heq
        exact hnd'.1 (List.mem_map.mpr ⟨s', hs', heq.symm⟩)
    · exact hnd'.2
    · rw [List.countP_append, hcount]
      cases htr : errTruthy (fetchClosingPrice s.ticker (tsOf s) (respOf s)).1.error with
      | true =>
        rw [if_pos rfl]
        simp [List.countP_cons, hpe, htr]
      | false =>
        rw [if_neg (by simp)]
        simp [List.countP_cons, hpe, htr]

/-- C9.  Null-price/error invariant: every result produced by a lookup has a
null price exactly when its error is non-null; consequently, in a completed
run over distinct identifiers the count of null-price entries equals the
number of accumulated ErrorRecords, although the two are computed
independently. -/
theorem nullPrice_error_invariant :
    (∀ (ticker : Option Str) (targetTs : ℤ) (resp : FetchResponse),
      ((fetchClosingPrice ticker targetTs resp).1.price = none ↔
        (fetchClosingPrice ticker targetTs resp).1.error ≠ none))
    ∧ (∀ (tsOf : StockRef → ℤ) (respOf : StockRef → FetchResponse)
        (stocks : List StockRef),
        (stocks.map StockRef.rawCode).Nodup →
        ((runAll tsOf respOf stocks [] []).1.countP
            (fun p => decide (p.2.price = none)))
          = (runAll tsOf respOf stocks [] []).2.length) := by
  constructor
  · intro ticker targetTs resp
    rcases (fetchClosingPrice_analysis ticker targetTs resp).2.2.1 with
      ⟨msg, -, hres⟩ | ⟨he, p, hp⟩
    · rw [hres]
      simp [nullResult]
    · rw [he, hp]
      simp
  · intro tsOf respOf stocks hnd
    exact runAll_count tsOf respOf stocks [] [] (by simp) hnd (by simp)

/-- Closed witness for C9: the count equality on a concrete one-stock run
whose lookup fails with a JSON parse error. -/
theorem nullPrice_error_invariant_witness :
    ((runAll (fun _ => 0) (fun _ => ⟨true, 200, none⟩)
        [⟨some ("8227.T".toList), "2024/01/01".toList, "8227".toList⟩] [] []).1.countP
        (fun p => decide (p.2.price = none)))
      = (runAll (fun _ => 0) (fun _ => ⟨true, 200, none⟩)
        [⟨some ("8227.T".toList), "2024/01/01".toList, "8227".toList⟩] [] []).2.length :=
  nullPrice_error_invariant.2 (fun _ => 0) (fun _ => ⟨true, 200, none⟩)
    [⟨some ("8227.T".toList), "2024/01/01".toList, "8227".toList⟩] (by decide)

-- ============================================
-- Batch partitioning of fetchAllPrices (src/app.js lines 373-398)
-- ============================================

/-- Batch loop of fetchAllPrices: the index advances by BATCH_SIZE = 5, each
iteration takes slice(i, i + 5), and the fixed 1500 ms delay is awaited
after an iteration exactly when i + 5 < total.  Returns the issued batches
in order and the number of delays awaited. -/
def batchGo (stocks : List StockRef) (i : ℕ) : List (List StockRef) × ℕ :=
  if h : i < stocks.length then
    let batch := (stocks.drop i).take 5
    let rest := batchGo stocks (i + 5)
    (batch :: rest.1, rest.2 + (if i + 5 < stocks.length then 1 else 0))
  else ([], 0)
termination_by stocks.length - i
decreasing_by
  simp_wf
  omega

/-- Full characterisation of the batch loop from any start index: number of
batches, order-preserving partition, batch sizes, and delay count. -/
theorem batchGo_spec (stocks : List StockRef) :
    ∀ (k : ℕ) (i : ℕ), stocks.length - i ≤ k →
      ((batchGo stocks i).1.length = (stocks.length - i + 4) / 5)
      ∧ ((batchGo stocks i).1.flatten = stocks.drop i)
      ∧ (∀ b ∈ (batchGo stocks i).1, b.length ≤ 5)
      ∧ (∀ b ∈ (batchGo stocks i).1.dropLast, b.length = 5)
      ∧ ((batchGo stocks i).2 = (batchGo stocks i).1.length - 1) := by
  intro k
  induction k with
  | zero =>
    intro i hi
    have hge : stocks.length ≤ i := by omega
    have hunf : batchGo stocks i = ([], 0) := by
      rw [batchGo, dif_neg (by omega)]
    rw [hunf]
    refine ⟨by simp; omega, by simp [List.drop_eq_nil_of_le hge],
      by simp, by simp, by simp⟩
  | succ k ih =>
    intro i hi
    by_cases h : i < stocks.length
    · have hunf : batchGo stocks i
          = ((stocks.drop i).take 5 :: (batchGo stocks (i + 5)).1,
             (batchGo stocks (i + 5)).2
               + (if i + 5 < stocks.length then 1 else 0)) := by
        rw [batchGo, dif_pos h]
      obtain ⟨ihlen, ihjoin, ihle, ihfive, ihsleep⟩ := ih (i + 5) (by omega)
      have hdd : (stocks.drop i).drop 5 = stocks.drop (i + 5) := by
        rw [List.drop_drop]
      rw [hunf]
      refine ⟨?_, ?_, ?_, ?_, ?_⟩
      · simp only [List.length_cons, ihlen]
        omega
      · rw [List.flatten_cons, ihjoin, ← hdd, List.take_append_drop]
      · intro b hb
        rcases List.mem_cons.mp hb with rfl | hb'
        · simp [List.length_take]
        · exact ihle b hb'
      · intro b hb
        cases hr1 : (batchGo stocks (i + 5)).1 with
        | nil =>
          rw [hr1] at hb
          simp at hb
        | cons x xs =>
          rw [hr1, List.dropLast_cons₂] at hb
          rcases List.mem_cons.mp hb with rfl | hb'
          · have hlen1 : 1 ≤ (batchGo stocks (i + 5)).1.length := by
              rw [hr1]; simp
            rw [ihlen] at hlen1
            simp only [List.length_take, List.length_drop]
            omega
          · apply ihfive
            rw [hr1]
            exact hb'
      · simp only [List.length_cons]
        by_cases h5 : i + 5 < stocks.length
        · rw [if_pos h5]
          have hlen1 : 1 ≤ (batchGo stocks (i + 5)).1.length := by
            rw [ihlen]; omega
          omega
        · rw [if_neg h5]
          have hlen0 : (batchGo stocks (i + 5)).1.length = 0 := by
            rw [ihlen]; omega
          omega
    · have hunf : batchGo stocks i = ([], 0) := by
        rw [batchGo, dif_neg h]
      rw [hunf]
      have hge : stocks.length ≤ i := by omega
      refine ⟨by simp; omega, by simp [List.drop_eq_nil_of_le hge],
        by simp, by simp, by simp⟩

/-- C7.  Batch pacing: for every StockRef list the orchestrator partitions
it in order into ceil(n/5) batches of size 5 (the last possibly smaller) and
awaits the fixed delay exactly ceil(n/5) - 1 times, between consecutive
batches and never after the last; in particular 12 stocks produce 3 batches
of sizes 5, 5, 2 and exactly 2 waits. -/
theorem fetchAllPrices_batching :
    (∀ stocks : List StockRef,
      ((batchGo stocks 0).1.length = (stocks.length + 4) / 5)
      ∧ ((batchGo stocks 0).1.flatten = stocks)
      ∧ (∀ b ∈ (batchGo stocks 0).1, b.length ≤ 5)
      ∧ (∀ b ∈ (batchGo stocks 0).1.dropLast, b.length = 5)
      ∧ ((batchGo stocks 0).2 = (stocks.length + 4) / 5 - 1))
    ∧ (∀ stocks : List StockRef, stocks.length = 12 →
        (batchGo stocks 0).1.map List.length = [5, 5, 2]
        ∧ (batchGo stocks 0).2 = 2) := by
  have hgen : ∀ stocks : List StockRef,
      ((batchGo stocks 0).1.length = (stocks.length + 4) / 5)
      ∧ ((batchGo stocks 0).1.flatten = stocks)
      ∧ (∀ b ∈ (batchGo stocks 0).1, b.length ≤ 5)
      ∧ (∀ b ∈ (batchGo stocks 0).1.dropLast, b.length = 5)
      ∧ ((batchGo stocks 0).2 = (stocks.length + 4) / 5 - 1) := by
    intro stocks
    obtain ⟨h1, h2, h3, h4, h5⟩ := batchGo_spec stocks stocks.length 0 (by omega)
    refine ⟨by simpa using h1, by simpa using h2, h3, h4, ?_⟩
    rw [h5]
    rw [show (batchGo stocks 0).1.length = (stocks.length + 4) / 5 from by simpa using h1]
  refine ⟨hgen, ?_⟩
  intro stocks h12
  obtain ⟨h1, h2, h3, h4, h5⟩ := hgen stocks
  rw [h12] at h1 h5
  norm_num at h1 h5
  obtain ⟨b1, b2, b3, hb⟩ := List.length_eq_three.mp h1
  have hfive := h4
  rw [hb] at hfive
  have hdl : ([b1, b2, b3] : List (List StockRef)).dropLast = [b1, b2] := rfl
  have h5a : b1.length = 5 := hfive b1 (by rw [hdl]; exact List.mem_cons_self _ _)
  have h5b : b2.length = 5 := hfive b2 (by rw [hdl]; simp)
  have hj := congrArg List.length h2
  rw [hb, h12] at hj
  simp at hj
  have h2b : b3.length = 2 := by omega
  refine ⟨?_, h5⟩
  rw [hb]
  simp [h5a, h5b, h2b]

/-- Closed witness for C7: the 12-stock example, instantiated with twelve
identical StockRefs. -/
theorem fetchAllPrices_batching_witness :
    (batchGo (List.replicate 12 (StockRef.mk none [] [])) 0).1.map List.length
        = [5, 5, 2]
    ∧ (batchGo (List.replicate 12 (StockRef.mk none [] [])) 0).2 = 2 :=
  fetchAllPrices_batching.2 (List.replicate 12 (StockRef.mk none [] [])) (by simp)

-- ============================================
-- parseCSVRows (src/app.js lines 62-108) and
-- generateOutputCSV (src/app.js lines 643-707)
-- ============================================

/-- Character loop of parseCSVRows: a state machine over the input text with
the in-quote flag, the current field, the current row and the accumulated
rows.  Inside quotes a doubled quote is appended as one quote (the source's
one-character lookahead with i++), a single quote leaves quote mode; outside
quotes a quote enters quote mode, a comma ends the field, a carriage return
is skipped, and a newline ends the row.  At the end of the input a nonempty
field or row is pushed. -/
def csvLoop : List Char → Bool → List Char → List (List Char) →
    List (List (List Char)) → List (List (List Char))
  | [], _, field, row, rows =>
    if field ≠ [] ∨ row ≠ [] then rows ++ [row ++ [field]] else rows
  | '"' :: '"' :: rest2, true, field, row, rows =>
    csvLoop rest2 true (field ++ ['"']) row rows
  | '"' :: rest, true, field, row, rows => csvLoop rest false field row rows
  | ch :: rest, true, field, row, rows => csvLoop rest true (field ++ [ch]) row rows
  | ch :: rest, false, field, row, rows =>
    if ch = '"' then csvLoop rest true field row rows
    else if ch = ',' then csvLoop rest false [] (row ++ [field]) rows
    else if ch = '\r' then csvLoop rest false field row rows
    else if ch = '\n' then csvLoop rest false [] [] (rows ++ [row ++ [field]])
    else csvLoop rest false (field ++ [ch]) row rows

/-- Row filter of parseCSVRows: keep rows with some non-blank field. -/
def rowNonBlank (row : List (List Char)) : Bool :=
  row.any (fun f => !(trimChars f).isEmpty)

/-- Translation of parseCSVRows: run the state machine from the empty state
and drop rows whose fields all trim to empty. -/
def parseCSVRows (text : List Char) : List (List (List Char)) :=
  (csvLoop text false [] [] []).filter rowNonBlank

/-- Doubling of internal quotes, as in val.replace of a quote by two. -/
def doubleQuotes : List Char → List Char
  | [] => []
  | c :: rest =>
    if c = '"' then '"' :: '"' :: doubleQuotes rest
    else c :: doubleQuotes rest

/-- A cell needs quoting when it contains a comma, quote or newline. -/
def needsQuote (val : Str) : Bool :=
  decide (',' ∈ val) || decide ('"' ∈ val) || decide ('\n' ∈ val)

/-- Quote-wrapping of an output cell in generateOutputCSV. -/
def escapeCell (val : Str) : Str :=
  if needsQuote val then '"' :: (doubleQuotes val ++ ['"']) else val

/-- Array.prototype.join with the comma separator. -/
def joinComma : List Str → Str
  | [] => []
  | [c] => c
  | c :: rest => c ++ ',' :: joinComma rest

/-- Array.prototype.join with the carriage-return line-feed separator. -/
def joinCRLF : List Str → Str
  | [] => []
  | [l] => l
  | l :: rest => l ++ '\r' :: '\n' :: joinCRLF rest

/-- The literal cell text N/A used for unavailable derived values. -/
def naCell : Str := "N/A".toList

/-- Decimal rendering of the rationals produced by the enrichment, whose
denominators divide 100: sign, integer part, then up to two fractional
digits with trailing zeros dropped, as JavaScript String() prints them. -/
def decStr (q : ℚ) : Str :=
  (if q < 0 then ['-'] else [])
    ++ natToChars ⌊|q|⌋.toNat
    ++ (if (⌊|q| * 100⌋.toNat) % 100 = 0 then []
        else if (⌊|q| * 100⌋.toNat) % 100 % 10 = 0 then
          ['.', digitChar ((⌊|q| * 100⌋.toNat) % 100 / 10)]
        else
          ['.', digitChar ((⌊|q| * 100⌋.toNat) % 100 / 10),
           digitChar ((⌊|q| * 100⌋.toNat) % 100 % 10)])

/-- JavaScript toFixed(2) on a non-negative value: round to the nearest
hundredth (ties up) and print exactly two fractional digits. -/
def toFixed2Abs (q : ℚ) : Str :=
  natToChars ((jsRound (q * 100)).toNat / 100)
    ++ ['.', digitChar ((jsRound (q * 100)).toNat / 10 % 10),
        digitChar ((jsRound (q * 100)).toNat % 10)]

/-- JavaScript toFixed(2): sign followed by the non-negative rendering. -/
def toFixed2 (q : ℚ) : Str :=
  if q < 0 then '-' :: toFixed2Abs (-q) else toFixed2Abs q

/-- Close-price cell of an exported row. -/
def priceCell (pd : Option FetchResult) : Str :=
  match pd with
  | some r =>
    match r.price with
    | some p => decStr p
    | none => naCell
  | none => naCell

/-- Dividend cell of an exported row. -/
def dividendCell (pd : Option FetchResult) : Str :=
  match pd with
  | some r =>
    match r.dividend with
    | some d => decStr d
    | none => naCell
  | none => naCell

/-- Dividend-yield cell of an exported row: dividend / price * 100 to two
decimals when both are present and the price is positive. -/
def yieldCell (pd : Option FetchResult) : Str :=
  match pd with
  | some r =>
    match r.price, r.dividend with
    | some p, some d => if 0 < p then toFixed2 (d / p * 100) else naCell
    | _, _ => naCell
  | none => naCell

/-- Change-percentage cell of an exported row. -/
def changeCell (v : Option ℚ) : Str :=
  match v with
  | some x => toFixed2 x
  | none => naCell

/-- The seven derived cells generateOutputCSV appends to a data row: close,
dividend, yield, and the four change percentages, looked up by the trimmed
identifier in column 4. -/
def derivedCells (closingPrices : List (Str × FetchResult)) (row : List Str) :
    List Str :=
  let pd := (closingPrices.find?
    (fun p => decide (p.1 = trimChars (row.getD 4 [])))).map Prod.snd
  [priceCell pd, dividendCell pd, yieldCell pd,
   changeCell (pd.bind FetchResult.change1d),
   changeCell (pd.bind FetchResult.change7d),
   changeCell (pd.bind FetchResult.change14d),
   changeCell (pd.bind FetchResult.change30d)]

/-- Data line of generateOutputCSV: the first nine cells trimmed and
quote-escaped, the derived cells appended verbatim, joined by commas. -/
def outputDataLine (closingPrices : List (Str × FetchResult)) (row : List Str) :
    Str :=
  joinComma ((row.take 9).map (fun c => escapeCell (trimChars c))
    ++ derivedCells closingPrices row)

/-- Data-row section of the generateOutputCSV output: one line per data row,
joined by carriage-return line-feed. -/
def outputDataText (closingPrices : List (Str × FetchResult))
    (rows : List (List Str)) : Str :=
  joinCRLF (rows.map (outputDataLine closingPrices))

/-- The exported cell values of a data row as reparsing should recover them:
the first nine cells trimmed, then the derived cells. -/
def outRow (closingPrices : List (Str × FetchResult)) (row : List Str) :
    List Str :=
  (row.take 9).map trimChars ++ derivedCells closingPrices row

/-- A character that the CSV writer may emit unquoted and that trim keeps:
not a quote, comma, carriage return, newline, and not whitespace. -/
def goodChar (c : Char) : Prop :=
  c ≠ '"' ∧ c ≠ ',' ∧ c ≠ '\r' ∧ c ≠ '\n' ∧ jsWs c = false

/-- A character safe inside an unquoted CSV field. -/
def plainChar (c : Char) : Prop :=
  c ≠ '"' ∧ c ≠ ',' ∧ c ≠ '\r' ∧ c ≠ '\n'

instance : DecidablePred goodChar := fun c => by
  unfold goodChar
  infer_instance

instance : DecidablePred plainChar := fun c => by
  unfold plainChar
  infer_instance

/-- Good characters are plain. -/
theorem goodChar_plain {c : Char} (h : goodChar c) : plainChar c :=
  ⟨h.1, h.2.1, h.2.2.1, h.2.2.2.1⟩

/-- Decimal digit characters are good. -/
theorem goodChar_digit {d : ℕ} (h : d < 10) : goodChar (digitChar d) := by
  interval_cases d <;> exact (by decide)

/-- Characters produced by the digit printer are digits modulo the seed. -/
theorem natToCharsAux_mem :
    ∀ (fuel n : ℕ) (acc : List Char) (c : Char), c ∈ natToCharsAux fuel n acc →
      c ∈ acc ∨ ∃ d, d < 10 ∧ c = digitChar d := by
  intro fuel
  induction fuel with
  | zero => intro n acc c hc; exact Or.inl hc
  | succ fuel ih =>
    intro n acc c hc
    rw [natToCharsAux] at hc
    by_cases hn : n < 10
    · rw [if_pos hn] at hc
      rcases List.mem_cons.mp hc with rfl | hc'
      · exact Or.inr ⟨n, hn, rfl⟩
      · exact Or.inl hc'
    · rw [if_neg hn] at hc
      rcases ih (n / 10) _ c hc with hacc | hd
      · rcases List.mem_cons.mp hacc with rfl | hacc'
        · exact Or.inr ⟨n % 10, Nat.mod_lt n (by omega), rfl⟩
        · exact Or.inl hacc'
      · exact Or.inr hd

/-- Every character of the decimal representation is a digit. -/
theorem natToChars_mem {n : ℕ} {c : Char} (hc : c ∈ natToChars n) :
    ∃ d, d < 10 ∧ c = digitChar d := by
  rcases natToCharsAux_mem (n + 1) n [] c hc with h | h
  · simp at h
  · exact h

/-- The digit printer never discards a nonempty accumulator. -/
theorem natToCharsAux_ne_nil :
    ∀ (fuel n : ℕ) (acc : List Char), acc ≠ [] → natToCharsAux fuel n acc ≠ [] := by
  intro fuel
  induction fuel with
  | zero => intro n acc h; simpa [natToCharsAux] using h
  | succ fuel ih =>
    intro n acc h
    rw [natToCharsAux]
    by_cases hn : n < 10
    · rw [if_pos hn]; simp
    · rw [if_neg hn]
      exact ih (n / 10) _ (by simp)

/-- The decimal representation is never empty. -/
theorem natToChars_ne_nil (n : ℕ) : natToChars n ≠ [] := by
  rw [natToChars, natToCharsAux]
  by_cases hn : n < 10
  · rw [if_pos hn]; simp
  · rw [if_neg hn]
    exact natToCharsAux_ne_nil n (n / 10) _ (by simp)

/-- Every character printed by decStr is good. -/
theorem decStr_good (q : ℚ) : ∀ c ∈ decStr q, goodChar c := by
  intro c hc
  rw [decStr] at hc
  rcases List.mem_append.mp hc with hc1 | hc2
  · rcases List.mem_append.mp hc1 with hs | hn
    · have : c = '-' := by
        by_cases hq : q < 0
        · rw [if_pos hq] at hs; simpa using hs
        · rw [if_neg hq] at hs; simp at hs
      rw [this]; exact (by decide)
    · obtain ⟨d, hd, rfl⟩ := natToChars_mem hn
      exact goodChar_digit hd
  · by_cases h0 : (⌊|q| * 100⌋.toNat) % 100 = 0
    · rw [if_pos h0] at hc2; simp at hc2
    · rw [if_neg h0] at hc2
      by_cases h10 : (⌊|q| * 100⌋.toNat) % 100 % 10 = 0
      · rw [if_pos h10] at hc2
        rcases List.mem_cons.mp hc2 with rfl | hc3
        · exact (by decide)
        · rcases List.mem_cons.mp hc3 with rfl | hc4
          · exact goodChar_digit (by omega)
          · simp at hc4
      · rw [if_neg h10] at hc2
        rcases List.mem_cons.mp hc2 with rfl | hc3
        · exact (by decide)
        · rcases List.mem_cons.mp hc3 with rfl | hc4
          · exact goodChar_digit (by omega)
          · rcases List.mem_cons.mp hc4 with rfl | hc5
            · exact goodChar_digit (by omega)
            · simp at hc5

/-- Every character printed by toFixed2Abs is good. -/
theorem toFixed2Abs_good (q : ℚ) : ∀ c ∈ toFixed2Abs q, goodChar c := by
  intro c hc
  rw [toFixed2Abs] at hc
  rcases List.mem_append.mp hc with hn | hf
  · obtain ⟨d, hd, rfl⟩ := natToChars_mem hn
    exact goodChar_digit hd
  · rcases List.mem_cons.mp hf with rfl | hf1
    · exact (by decide)
    · rcases List.mem_cons.mp hf1 with rfl | hf2
      · exact goodChar_digit (by omega)
      · rcases List.mem_cons.mp hf2 with rfl | hf3
        · exact goodChar_digit (by omega)
        · simp at hf3

/-- Every character printed by toFixed2 is good. -/
theorem toFixed2_good (q : ℚ) : ∀ c ∈ toFixed2 q, goodChar c := by
  intro c hc
  rw [toFixed2] at hc
  by_cases hq : q < 0
  · rw [if_pos hq] at hc
    rcases List.mem_cons.mp hc with rfl | hc'
    · exact (by decide)
    · exact toFixed2Abs_good _ c hc'
  · rw [if_neg hq] at hc
    exact toFixed2Abs_good _ c hc

/-- The N/A cell has only good characters. -/
theorem naCell_good : ∀ c ∈ naCell, goodChar c := by decide

/-- The N/A cell is nonempty. -/
theorem naCell_ne_nil : naCell ≠ [] := by decide

/-- The decStr rendering is nonempty. -/
theorem decStr_ne_nil (q : ℚ) : decStr q ≠ [] := by
  rw [decStr]
  intro h
  obtain ⟨h1, -⟩ := List.append_eq_nil.mp h
  obtain ⟨-, h2⟩ := List.append_eq_nil.mp h1
  exact natToChars_ne_nil _ h2

/-- Every derived cell consists of good characters only. -/
theorem derivedCells_good (pm : List (Str × FetchResult)) (row : List Str) :
    ∀ cell ∈ derivedCells pm row, ∀ c ∈ cell, goodChar c := by
  intro cell hcell
  rw [derivedCells] at hcell
  simp only [List.mem_cons, List.not_mem_nil, or_false] at hcell
  have hp : ∀ pd : Option FetchResult, ∀ c ∈ priceCell pd, goodChar c := by
    intro pd c hc
    rcases pd with - | r
    · exact naCell_good c hc
    · rcases hr : r.price with - | p
      · rw [priceCell, hr] at hc; exact naCell_good c hc
      · rw [priceCell, hr] at hc; exact decStr_good p c hc
  have hd : ∀ pd : Option FetchResult, ∀ c ∈ dividendCell pd, goodChar c := by
    intro pd c hc
    rcases pd with - | r
    · exact naCell_good c hc
    · rcases hr : r.dividend with - | d
      · rw [dividendCell, hr] at hc; exact naCell_good c hc
      · rw [dividendCell, hr] at hc; exact decStr_good d c hc
  have hy : ∀ pd : Option FetchResult, ∀ c ∈ yieldCell pd, goodChar c := by
    intro pd c hc
    rcases pd with - | r
    · exact naCell_good c hc
    · rcases hrp : r.price with - | p <;> rcases hrd : r.dividend with - | d <;>
        simp only [yieldCell, hrp, hrd] at hc
      · exact naCell_good c hc
      · exact naCell_good c hc
      · exact naCell_good c hc
      · by_cases hpos : 0 < p
        · rw [if_pos hpos] at hc; exact toFixed2_good _ c hc
        · rw [if_neg hpos] at hc; exact naCell_good c hc
  have hch : ∀ v : Option ℚ, ∀ c ∈ changeCell v, goodChar c := by
    intro v c hc
    rcases v with - | x
    · exact naCell_good c hc
    · exact toFixed2_good x c hc
  rcases hcell with rfl | rfl | rfl | rfl | rfl | rfl | rfl
  · exact hp _
  · exact hd _
  · exact hy _
  · exact hch _
  · exact hch _
  · exact hch _
  · exact hch _

/-- The price cell is always nonempty. -/
theorem priceCell_ne_nil (pd : Option FetchResult) : priceCell pd ≠ [] := by
  rcases pd with - | r
  · exact naCell_ne_nil
  · rcases hr : r.price with - | p
    · rw [priceCell, hr]; exact naCell_ne_nil
    · rw [priceCell, hr]; exact decStr_ne_nil p

/-- Dropping a predicate that holds nowhere is the identity. -/
theorem dropWhile_eq_self_of_none {p : Char → Bool} :
    ∀ s : List Char, (∀ c ∈ s, p c = false) → s.dropWhile p = s := by
  intro s h
  cases s with
  | nil => rfl
  | cons c rest => rw [List.dropWhile_cons_of_neg (by simp [h c (List.mem_cons_self _ _)])]

/-- Trimming a string of non-whitespace characters changes nothing. -/
theorem trimChars_eq_self {s : Str} (h : ∀ c ∈ s, jsWs c = false) :
    trimChars s = s := by
  rw [trimChars, dropWhile_eq_self_of_none s h,
    dropWhile_eq_self_of_none s.reverse (fun c hc => h c (List.mem_reverse.mp hc)),
    List.reverse_reverse]

/-- Every exported data row passes the parser's non-blank filter: its price
cell is nonempty and free of whitespace. -/
theorem rowNonBlank_outRow (pm : List (Str × FetchResult)) (row : List Str) :
    rowNonBlank (outRow pm row) = true := by
  rw [rowNonBlank, List.any_eq_true]
  have hpd : priceCell ((pm.find?
      (fun p => decide (p.1 = trimChars (row.getD 4 [])))).map Prod.snd)
      ∈ outRow pm row := by
    rw [outRow]
    refine List.mem_append.mpr (Or.inr ?_)
    rw [derivedCells]
    exact List.mem_cons_self _ _
  refine ⟨_, hpd, ?_⟩
  have hgood := derivedCells_good pm row _ (by rw [derivedCells]; exact List.mem_cons_self _ _)
  rw [trimChars_eq_self (fun c hc => (hgood c hc).2.2.2.2)]
  simp [priceCell_ne_nil]

/-- Escaping is the identity on cells of good characters. -/
theorem escapeCell_eq_self {s : Str} (h : ∀ c ∈ s, goodChar c) :
    escapeCell s = s := by
  rw [escapeCell, if_neg]
  simp only [needsQuote, Bool.or_eq_true, decide_eq_true_eq]
  push_neg
  refine ⟨⟨fun hmem => ?_, fun hmem => ?_⟩, fun hmem => ?_⟩
  · exact absurd rfl (h ',' hmem).2.1
  · exact absurd rfl (h '"' hmem).1
  · exact absurd rfl (h '\n' hmem).2.2.2.1

/-- A closing quote not followed by another quote leaves quote mode. -/
theorem csvQuoteExit (rest : Str) (field : Str) (row : List Str)
    (rows : List (List Str)) (h : rest.head? ≠ some '"') :
    csvLoop ('"' :: rest) true field row rows = csvLoop rest false field row rows := by
  cases rest with
  | nil => simp [csvLoop]
  | cons c2 rest2 =>
    have hc2 : c2 ≠ '"' := by simpa using h
    simp [csvLoop, hc2]

/-- Scanning the quote-doubled body of a cell followed by the closing quote
appends the cell to the current field and leaves quote mode. -/
theorem csvQuotedBody :
    ∀ (c : Str) (rest : Str) (field : Str) (row : List Str) (rows : List (List Str)),
      rest.head? ≠ some '"' →
      csvLoop (doubleQuotes c ++ '"' :: rest) true field row rows
        = csvLoop rest false (field ++ c) row rows := by
  intro c
  induction c with
  | nil =>
    intro rest field row rows h
    rw [doubleQuotes, List.nil_append, csvQuoteExit rest field row rows h,
      List.append_nil]
  | cons c0 c' ih =>
    intro rest field row rows h
    by_cases hc0 : c0 = '"'
    · subst hc0
      have hdq : doubleQuotes ('"' :: c') = '"' :: '"' :: doubleQuotes c' := by
        rw [doubleQuotes, if_pos rfl]
      rw [hdq]
      have hstep : csvLoop ('"' :: '"' :: (doubleQuotes c' ++ '"' :: rest)) true
          field row rows
          = csvLoop (doubleQuotes c' ++ '"' :: rest) true (field ++ ['"']) row rows := by
        simp [csvLoop]
      rw [List.cons_append, List.cons_append, hstep, ih rest _ row rows h,
        List.append_assoc]
      rfl
    · have hdq : doubleQuotes (c0 :: c') = c0 :: doubleQuotes c' := by
        rw [doubleQuotes, if_neg hc0]
      rw [hdq, List.cons_append]
      have hstep : csvLoop (c0 :: (doubleQuotes c' ++ '"' :: rest)) true field row rows
          = csvLoop (doubleQuotes c' ++ '"' :: rest) true (field ++ [c0]) row rows := by
        cases hrest : doubleQuotes c' ++ '"' :: rest with
        | nil => simp at hrest
        | cons x xs => simp [csvLoop, hc0]
      rw [hstep, ih rest _ row rows h, List.append_assoc]
      rfl

/-- Scanning a run of plain characters outside quotes appends it to the
current field. -/
theorem csvPlainRun :
    ∀ (c : Str), (∀ ch ∈ c, plainChar ch) →
      ∀ (rest : Str) (field : Str) (row : List Str) (rows : List (List Str)),
        csvLoop (c ++ rest) false field row rows
          = csvLoop rest false (field ++ c) row rows := by
  intro c
  induction c with
  | nil => intro _ rest field row rows; rw [List.nil_append, List.append_nil]
  | cons c0 c' ih =>
    intro hplain rest field row rows
    obtain ⟨h1, h2, h3, h4⟩ := hplain c0 (List.mem_cons_self _ _)
    have hstep : csvLoop (c0 :: (c' ++ rest)) false field row rows
        = csvLoop (c' ++ rest) false (field ++ [c0]) row rows := by
      simp [csvLoop, h1, h2, h3, h4]
    rw [List.cons_append, hstep,
      ih (fun ch hch => hplain ch (List.mem_cons_of_mem _ hch)) rest _ row rows,
      List.append_assoc]
    rfl

/-- Scanning one escaped cell outside quotes appends the cell's value to the
current field, provided the cell has no carriage return and the remainder
does not begin with a quote. -/
theorem csvCell (c : Str) (hcr : '\r' ∉ c) (rest : Str) (field : Str)
    (row : List Str) (rows : List (List Str)) (h : rest.head? ≠ some '"') :
    csvLoop (escapeCell c ++ rest) false field row rows
      = csvLoop rest false (field ++ c) row rows := by
  by_cases hq : needsQuote c = true
  · have hesc : escapeCell c = '"' :: (doubleQuotes c ++ ['"']) := by
      rw [escapeCell, if_pos hq]
    rw [hesc, List.cons_append, List.append_assoc, List.singleton_append]
    have hstep : csvLoop ('"' :: (doubleQuotes c ++ ('"' :: rest)))
        false field row rows
        = csvLoop (doubleQuotes c ++ '"' :: rest) true field row rows := by
      cases hrest : doubleQuotes c ++ '"' :: rest with
      | nil => simp at hrest
      | cons x xs => simp [csvLoop]
    rw [hstep, csvQuotedBody c rest field row rows h]
  · have hesc : escapeCell c = c := by rw [escapeCell, if_neg hq]
    rw [hesc]
    apply csvPlainRun
    intro ch hch
    simp only [needsQuote, Bool.or_eq_true, decide_eq_true_eq] at hq
    push_neg at hq
    refine ⟨?_, ?_, ?_, ?_⟩
    · intro he; subst he; exact hq.1.2 hch
    · intro he; subst he; exact hq.1.1 hch
    · intro he; subst he; exact hcr hch
    · intro he; subst he; exact hq.2 hch

/-- Scanning one full exported line followed by a CRLF separator pushes the
line's cells as one row. -/
theorem csvLine :
    ∀ (cells : List Str), cells ≠ [] → (∀ cell ∈ cells, '\r' ∉ cell) →
      ∀ (rowAcc : List Str) (rows : List (List Str)) (rest : Str),
        csvLoop (joinComma (cells.map escapeCell) ++ '\r' :: '\n' :: rest)
            false [] rowAcc rows
          = csvLoop rest false [] [] (rows ++ [rowAcc ++ cells]) := by
  intro cells
  induction cells with
  | nil => intro h; exact absurd rfl h
  | cons c cs ih =>
    intro _ hcr rowAcc rows rest
    cases cs with
    | nil =>
      have hj : joinComma ([c].map escapeCell) = escapeCell c := by simp [joinComma]
      rw [hj, csvCell c (hcr c (List.mem_cons_self _ _)) _ _ _ _ (by simp)]
      have hstep : csvLoop ('\r' :: '\n' :: rest) false ([] ++ c) rowAcc rows
          = csvLoop rest false [] [] (rows ++ [rowAcc ++ [[] ++ c]]) := by
        simp [csvLoop]
      rw [hstep]
      simp
    | cons c' cs' =>
      have hj : joinComma ((c :: c' :: cs').map escapeCell)
          = escapeCell c ++ ',' :: joinComma ((c' :: cs').map escapeCell) := by
        simp [joinComma]
      rw [hj, List.append_assoc, List.cons_append,
        csvCell c (hcr c (List.mem_cons_self _ _)) _ _ _ _ (by simp)]
      have hstep : csvLoop (',' :: (joinComma ((c' :: cs').map escapeCell)
            ++ '\r' :: '\n' :: rest)) false ([] ++ c) rowAcc rows
          = csvLoop (joinComma ((c' :: cs').map escapeCell) ++ '\r' :: '\n' :: rest)
              false [] (rowAcc ++ [[] ++ c]) rows := by
        simp [csvLoop]
      rw [hstep, ih (by simp)
        (fun cell hcell => hcr cell (List.mem_cons_of_mem _ hcell))
        (rowAcc ++ [[] ++ c]) rows rest]
      simp

/-- Scanning the final exported line (no trailing separator) pushes its
cells as the last row, provided the line has at least two cells or the
current row is already nonempty. -/
theorem csvLastLine :
    ∀ (cells : List Str), cells ≠ [] → (∀ cell ∈ cells, '\r' ∉ cell) →
      ∀ (rowAcc : List Str) (rows : List (List Str)),
        2 ≤ cells.length ∨ rowAcc ≠ [] →
        csvLoop (joinComma (cells.map escapeCell)) false [] rowAcc rows
          = rows ++ [rowAcc ++ cells] := by
  intro cells
  induction cells with
  | nil => intro h; exact absurd rfl h
  | cons c cs ih =>
    intro _ hcr rowAcc rows hcond
    cases cs with
    | nil =>
      have hra : rowAcc ≠ [] := by
        rcases hcond with h2 | h
        · simp at h2
        · exact h
      have hj : joinComma ([c].map escapeCell) = escapeCell c := by simp [joinComma]
      rw [hj, show escapeCell c = escapeCell c ++ ([] : Str) from
          (List.append_nil _).symm,
        csvCell c (hcr c (List.mem_cons_self _ _)) [] _ _ _ (by simp)]
      rw [csvLoop, if_pos (Or.inr hra)]
      simp
    | cons c' cs' =>
      have hj : joinComma ((c :: c' :: cs').map escapeCell)
          = escapeCell c ++ ',' :: joinComma ((c' :: cs').map escapeCell) := by
        simp [joinComma]
      rw [hj, csvCell c (hcr c (List.mem_cons_self _ _)) _ _ _ _ (by simp)]
      have hstep : csvLoop (',' :: joinComma ((c' :: cs').map escapeCell))
            false ([] ++ c) rowAcc rows
          = csvLoop (joinComma ((c' :: cs').map escapeCell))
              false [] (rowAcc ++ [[] ++ c]) rows := by
        simp [csvLoop]
      rw [hstep, ih (by simp)
        (fun cell hcell => hcr cell (List.mem_cons_of_mem _ hcell))
        (rowAcc ++ [[] ++ c]) rows (Or.inr (by simp))]
      simp

/-- Scanning the whole exported data section appends exactly the encoded
rows to the accumulated rows. -/
theorem csvText :
    ∀ (rowsList : List (List Str)),
      (∀ r ∈ rowsList, 2 ≤ r.length ∧ ∀ cell ∈ r, '\r' ∉ cell) →
      ∀ (rows : List (List Str)),
        csvLoop (joinCRLF (rowsList.map
            (fun cells => joinComma (cells.map escapeCell)))) false [] [] rows
          = rows ++ rowsList := by
  intro rowsList
  induction rowsList with
  | nil =>
    intro _ rows
    simp [joinCRLF, csvLoop]
  | cons r rs ih =>
    intro hgood rows
    obtain ⟨hr2, hrcr⟩ := hgood r (List.mem_cons_self _ _)
    have hrne : r ≠ [] := by
      intro h
      rw [h] at hr2
      simp at hr2
    cases rs with
    | nil =>
      have hj : joinCRLF ([r].map (fun cells => joinComma (cells.map escapeCell)))
          = joinComma (r.map escapeCell) := by simp [joinCRLF]
      rw [hj, csvLastLine r hrne hrcr [] rows (Or.inl hr2)]
      simp
    | cons r' rs' =>
      have hj : joinCRLF ((r :: r' :: rs').map
            (fun cells => joinComma (cells.map escapeCell)))
          = joinComma (r.map escapeCell) ++ '\r' :: '\n'
              :: joinCRLF ((r' :: rs').map
                (fun cells => joinComma (cells.map escapeCell))) := by
        simp [joinCRLF]
      rw [hj, csvLine r hrne hrcr [] rows _,
        ih (fun rr hrr => hgood rr (List.mem_cons_of_mem _ hrr)) (rows ++ [[] ++ r])]
      simp

/-- The exported data line is the comma join of the escaped recovered cells:
the derived cells are plain, so escaping them is the identity. -/
theorem outputDataLine_eq (pm : List (Str × FetchResult)) (row : List Str) :
    outputDataLine pm row = joinComma ((outRow pm row).map escapeCell) := by
  have hmap : (derivedCells pm row).map escapeCell = derivedCells pm row := by
    have hid : ∀ cell ∈ derivedCells pm row, escapeCell cell = cell := fun cell hcell =>
      escapeCell_eq_self (derivedCells_good pm row cell hcell)
    calc (derivedCells pm row).map escapeCell
        = (derivedCells pm row).map id := List.map_congr_left hid
      _ = derivedCells pm row := List.map_id _
  rw [outputDataLine, outRow, List.map_append, List.map_map, hmap]
  rfl

/-- Reparsing the exported data section recovers exactly the trimmed and
derived cell rows. -/
theorem parse_outputDataText (pm : List (Str × FetchResult))
    (rows : List (List Str))
    (hcr : ∀ row ∈ rows, ∀ cell ∈ row.take 9, '\r' ∉ trimChars cell) :
    parseCSVRows (outputDataText pm rows) = rows.map (outRow pm) := by
  have htext : outputDataText pm rows
      = joinCRLF ((rows.map (outRow pm)).map
          (fun cells => joinComma (cells.map escapeCell))) := by
    rw [outputDataText, List.map_map]
    exact congrArg joinCRLF
      (List.map_congr_left (fun row hrow => outputDataLine_eq pm row))
  have hgood : ∀ r ∈ rows.map (outRow pm),
      2 ≤ r.length ∧ ∀ cell ∈ r, '\r' ∉ cell := by
    intro r hr
    obtain ⟨row, hrow, rfl⟩ := List.mem_map.mp hr
    constructor
    · rw [outRow, List.length_append]
      have h7 : (derivedCells pm row).length = 7 := by simp [derivedCells]
      omega
    · intro cell hcell
      rw [outRow] at hcell
      rcases List.mem_append.mp hcell with hc9 | hcd
      · obtain ⟨c0, hc0, rfl⟩ := List.mem_map.mp hc9
        exact hcr row hrow c0 hc0
      · intro hmem
        exact ((derivedCells_good pm row cell hcd) '\r' hmem).2.2.1 rfl
  rw [parseCSVRows, htext, csvText (rows.map (outRow pm)) hgood [],
    List.nil_append]
  apply List.filter_eq_self.mpr
  intro r hr
  obtain ⟨row, hrow, rfl⟩ := List.mem_map.mp hr
  exact rowNonBlank_outRow pm row

/-- Counterexample to C10 as stated: the serializer trims each cell before
writing, so re-parsing the exported data rows yields the trimmed value "a"
for an original first-column cell " a", not the original cell value. -/
theorem generateOutputCSV_roundTrip_cex :
    ((parseCSVRows (outputDataText [] [[[' ', 'a']]])).getD 0 []).getD 0 ['x']
      = ['a']
    ∧ (([[[' ', 'a']]] : List (List Str)).getD 0 []).getD 0 ['x'] = [' ', 'a']
    ∧ (['a'] : Str) ≠ [' ', 'a'] := by decide

/-- C10 (amended).  Export round-trip: serializing the data rows to the
export format (quote-wrapping fields containing a comma, quote or newline,
doubling internal quotes) and re-parsing the delimited rows with the CSV row
parser reproduces the trimmed cell values of the first nine columns of every
data row, modulo the appended derived columns, provided no trimmed cell
contains a carriage return (the serializer trims each cell before writing,
and an unquoted carriage return is dropped by the parser). -/
theorem generateOutputCSV_roundTrip :
    ∀ (pm : List (Str × FetchResult)) (rows : List (List Str)),
      (∀ row ∈ rows, ∀ cell ∈ row.take 9, '\r' ∉ trimChars cell) →
      (parseCSVRows (outputDataText pm rows) = rows.map (outRow pm)
       ∧ ∀ (i j : ℕ) (row : List Str), rows.get? i = some row → j < 9 →
          j < row.length →
          ((parseCSVRows (outputDataText pm rows)).getD i []).getD j []
            = trimChars (row.getD j [])) := by
  intro pm rows hcr
  have hmain := parse_outputDataText pm rows hcr
  refine ⟨hmain, ?_⟩
  intro i j row hi hj9 hjlen
  rw [hmain]
  have hgi : (rows.map (outRow pm)).getD i [] = outRow pm row := by
    rw [List.getD_eq_getD_get?, List.get?_map, hi]
    rfl
  rw [hgi, outRow]
  have hjlt : j < ((row.take 9).map trimChars).length := by
    simp only [List.length_map, List.length_take]
    omega
  have happ : (((row.take 9).map trimChars) ++ derivedCells pm row).getD j []
      = ((row.take 9).map trimChars).getD j [] := by
    rw [List.getD_eq_getD_get?, List.get?_append hjlt, ← List.getD_eq_getD_get?]
  rw [happ, List.getD_eq_getD_get?, List.getD_eq_getD_get?, List.get?_map]
  have ht : (row.take 9).get? j = row.get? j := List.get?_take (by omega)
  rw [ht]
  cases hx : row.get? j with
  | none =>
    have := List.get?_eq_none.mp hx
    omega
  | some v => simp

/-- Closed witness for the amended C10: the round trip at a concrete
one-cell data row with no price map. -/
theorem generateOutputCSV_roundTrip_witness :
    parseCSVRows (outputDataText [] [[['a']]]) = [[['a']]].map (outRow []) :=
  (generateOutputCSV_roundTrip [] [[['a']]] (by decide)).1
